import Mathlib

/-!
Shallow embedding of the vtrunkd link-bonding dataplane (`src/wireguard.rs`).

Modelling conventions:
* `Instant` and `Duration` become `Nat` (milliseconds); `Instant::duration_since`
  becomes truncated subtraction, matching its saturating behaviour.
* Byte strings become `List Nat` (each element a byte value).
* `SocketAddr` is abstracted to `Nat`; the code only compares and stores it.
* UDP send outcomes are an oracle `sendOk : Nat → Bool` indexed by link;
  every `socket.send_to` call is recorded as a transmission attempt
  `(link index, bytes)` in an output list.
* `warn!` calls are counted (the model returns how many warnings a call logs);
  `info!`/`debug!` logging is ignored.
* Out-of-range indexing (which would panic in Rust; callers keep indices in
  range) is modelled as a no-op returning failure.
-/

/-- One transmission attempt: link index paired with the bytes handed to
`send_to`. -/
abbrev Tx := Nat × List Nat

/-- `BondingMode` from `config.rs`. -/
inductive BondingMode where
  | Aggregate
  | Redundant
  | Failover
deriving DecidableEq, Repr

/-- Per-link state (`struct Link`), minus the socket handle and name. -/
structure Link where
  remote : Option Nat
  weight : Nat
  down_since : Option Nat
  last_rx : Option Nat
  last_ping_sent : Option Nat
  last_rtt_ms : Option Nat
deriving DecidableEq, Repr

/-- `struct LinkManager`. -/
structure LinkManager where
  links : List Link
  mode : BondingMode
  error_backoff : Nat
  health_timeout : Option Nat
  next_index : Nat
  remaining_weight : Nat
deriving DecidableEq, Repr

/-- `BOND_MAGIC = *b"VTBD"` as byte values. -/
def BOND_MAGIC : List Nat := [86, 84, 66, 68]

/-- `BOND_PING`. -/
def BOND_PING : Nat := 1

/-- `BOND_PONG`. -/
def BOND_PONG : Nat := 2

/-- `BOND_PACKET_LEN`. -/
def BOND_PACKET_LEN : Nat := 13

/-- `WG_KEEPALIVE_LEN`. -/
def WG_KEEPALIVE_LEN : Nat := 32

/-- `u64::to_be_bytes`: eight big-endian bytes of `n` (for `n < 2^64`). -/
def u64_to_be_bytes (n : Nat) : List Nat :=
  [n / 2 ^ 56 % 256, n / 2 ^ 48 % 256, n / 2 ^ 40 % 256, n / 2 ^ 32 % 256,
   n / 2 ^ 24 % 256, n / 2 ^ 16 % 256, n / 2 ^ 8 % 256, n % 256]

/-- `u64::from_be_bytes` over a list of bytes. -/
def u64_from_be_bytes (bs : List Nat) : Nat :=
  bs.foldl (fun acc b => acc * 256 + b) 0

/-- `build_control_packet(message_type, token)`: 4 magic bytes, the type byte,
then the token big-endian. -/
def build_control_packet (message_type : Nat) (token : Nat) : List Nat :=
  BOND_MAGIC ++ [message_type] ++ u64_to_be_bytes token

/-- `parse_control_packet(data)`: `None` unless the length is exactly 13 and
the first four bytes are the magic; otherwise the type byte and the
big-endian token. -/
def parse_control_packet (data : List Nat) : Option (Nat × Nat) :=
  if data.length ≠ BOND_PACKET_LEN then none
  else if data.take 4 ≠ BOND_MAGIC then none
  else some (data.getD 4 0, u64_from_be_bytes (data.drop 5))

/-- `wg_packet_type(packet)`: the first four bytes as a little-endian u32,
`None` if fewer than four bytes. -/
def wg_packet_type (packet : List Nat) : Option Nat :=
  if packet.length < 4 then none
  else some (packet.getD 0 0 + packet.getD 1 0 * 256 +
    packet.getD 2 0 * 65536 + packet.getD 3 0 * 16777216)

namespace Link

/-- `Link::is_available(now, error_backoff, health_timeout)`.
Returns the verdict, the (possibly mutated) link, and how many warnings were
logged. -/
def is_available (l : Link) (now : Nat) (error_backoff : Nat)
    (health_timeout : Option Nat) : Bool × Link × Nat :=
  if l.remote.isNone then (false, l, 0)
  else
    let markDown : Bool × Link × Nat :=
      (false, { l with down_since := some now },
        if l.down_since.isNone then 1 else 0)
    let backoffCheck : Bool × Link × Nat :=
      match l.down_since with
      | some d => if now - d < error_backoff then (false, l, 0) else (true, l, 0)
      | none => (true, l, 0)
    match health_timeout with
    | some timeout =>
      match l.last_rx, l.last_ping_sent with
      | some last_rx, _ =>
        if now - last_rx > timeout then markDown else backoffCheck
      | none, some last_ping =>
        if now - last_ping > timeout then markDown else backoffCheck
      | none, none => backoffCheck
    | none => backoffCheck

/-- `Link::record_rx(now)`. -/
def record_rx (l : Link) (now : Nat) : Link :=
  { l with last_rx := some now, down_since := none }

/-- `Link::record_ping(now)`. -/
def record_ping (l : Link) (now : Nat) : Link :=
  { l with last_ping_sent := some now }

/-- `Link::record_rtt(rtt_ms)`. -/
def record_rtt (l : Link) (rtt_ms : Nat) : Link :=
  { l with last_rtt_ms := some rtt_ms }

/-- `Link::record_send_ok()`. -/
def record_send_ok (l : Link) : Link :=
  { l with down_since := none }

/-- `Link::record_send_error(now, err)`: marks the link down, warning once on
the transition. -/
def record_send_error (l : Link) (now : Nat) : Link × Nat :=
  ({ l with down_since := some now }, if l.down_since.isNone then 1 else 0)

end Link

namespace LinkManager

/-- `LinkManager::has_endpoints`. -/
def has_endpoints (m : LinkManager) : Bool :=
  m.links.any (fun l => l.remote.isSome)

/-- `LinkManager::update_remote(index, src, now)`. -/
def update_remote (m : LinkManager) (index : Nat) (src : Nat) (now : Nat) :
    LinkManager :=
  match m.links[index]? with
  | none => m
  | some l =>
    { m with links := m.links.set index ((Link.record_rx { l with remote := some src } now)) }

/-- `LinkManager::advance_cursor(len)`. -/
def advance_cursor (m : LinkManager) (len : Nat) : LinkManager :=
  { m with next_index := (m.next_index + 1) % len, remaining_weight := 0 }

/-- `LinkManager::send_to_link(index, packet, now)`: no-op returning false
when the link has no remote; otherwise one `send_to` attempt whose outcome is
`sendOk index`. Returns success, the new manager, the attempts, and warnings. -/
def send_to_link (m : LinkManager) (sendOk : Nat → Bool) (index : Nat)
    (packet : List Nat) (now : Nat) : Bool × LinkManager × List Tx × Nat :=
  match m.links[index]? with
  | none => (false, m, [], 0)
  | some l =>
    match l.remote with
    | none => (false, m, [], 0)
    | some _ =>
      if sendOk index then
        (true, { m with links := m.links.set index l.record_send_ok },
          [(index, packet)], 0)
      else
        let (l', w) := l.record_send_error now
        (false, { m with links := m.links.set index l' }, [(index, packet)], w)

/-- `LinkManager::send_probe(index, packet, now)`: same body as
`send_to_link`. -/
def send_probe (m : LinkManager) (sendOk : Nat → Bool) (index : Nat)
    (packet : List Nat) (now : Nat) : Bool × LinkManager × List Tx × Nat :=
  send_to_link m sendOk index packet now

/-- The `for index in 0..len` loop body of `send_all`, over the list of
indices still to visit. Returns the number of successful sends. -/
def send_all_go (sendOk : Nat → Bool) (packet : List Nat) (now : Nat) :
    List Nat → LinkManager → Nat × LinkManager × List Tx × Nat
  | [], m => (0, m, [], 0)
  | i :: rest, m =>
    let (ok, m', tx, w) := m.send_to_link sendOk i packet now
    let (sent, m'', txs, w') := send_all_go sendOk packet now rest m'
    ((if ok then 1 else 0) + sent, m'', tx ++ txs, w + w')

/-- `LinkManager::send_all(packet)`: attempt every link; warn once if no send
succeeded. -/
def send_all (m : LinkManager) (sendOk : Nat → Bool) (packet : List Nat)
    (now : Nat) : LinkManager × List Tx × Nat :=
  let (sent, m', txs, w) := send_all_go sendOk packet now (List.range m.links.length) m
  if sent = 0 then (m', txs, w + 1) else (m', txs, w)

/-- The `for index in 0..len { if send_to_link ... return true }` loop of
`send_any`. -/
def send_any_go (sendOk : Nat → Bool) (packet : List Nat) (now : Nat) :
    List Nat → LinkManager → Bool × LinkManager × List Tx × Nat
  | [], m => (false, m, [], 0)
  | i :: rest, m =>
    let (ok, m', tx, w) := m.send_to_link sendOk i packet now
    if ok then (true, m', tx, w)
    else
      let (r, m'', txs, w') := send_any_go sendOk packet now rest m'
      (r, m'', tx ++ txs, w + w')

/-- `LinkManager::send_any(packet, now)`: first successful link wins. -/
def send_any (m : LinkManager) (sendOk : Nat → Bool) (packet : List Nat)
    (now : Nat) : Bool × LinkManager × List Tx × Nat :=
  send_any_go sendOk packet now (List.range m.links.length) m

/-- The `while attempts < len` loop of `next_weighted_index`, with the
remaining attempt budget as fuel. -/
def nwi_go (now : Nat) : Nat → LinkManager → Option Nat × LinkManager × Nat
  | 0, m => (none, m, 0)
  | fuel + 1, m =>
    let len := m.links.length
    let index := m.next_index % len
    match m.links[index]? with
    | none => (none, m, 0)
    | some l =>
      let (ok, l', w) := l.is_available now m.error_backoff m.health_timeout
      let m1 : LinkManager := { m with links := m.links.set index l' }
      if l.weight = 0 ∨ ok = false then
        let (r, m2, w') := nwi_go now fuel (m1.advance_cursor len)
        (r, m2, w + w')
      else
        let rw := if m1.remaining_weight = 0 then l.weight else m1.remaining_weight
        if rw > 0 then
          let m2 : LinkManager := { m1 with remaining_weight := rw - 1 }
          let m3 := if rw - 1 = 0 then m2.advance_cursor len else m2
          (some index, m3, w)
        else
          let (r, m2, w') := nwi_go now fuel ({ m1 with remaining_weight := rw }.advance_cursor len)
          (r, m2, w + w')

/-- `LinkManager::next_weighted_index(now)`. -/
def next_weighted_index (m : LinkManager) (now : Nat) :
    Option Nat × LinkManager × Nat :=
  if m.links.isEmpty then (none, m, 0)
  else nwi_go now m.links.length m

/-- The `while attempts < len` retry loop of `send_round_robin` (fuel is the
remaining attempt budget). Returns true if some weighted send succeeded. -/
def srr_go (sendOk : Nat → Bool) (packet : List Nat) (now : Nat) :
    Nat → LinkManager → Bool × LinkManager × List Tx × Nat
  | 0, m => (false, m, [], 0)
  | fuel + 1, m =>
    match m.next_weighted_index now with
    | (none, m', w) => (false, m', [], w)
    | (some index, m', w) =>
      let (ok, m'', tx, w2) := m'.send_to_link sendOk index packet now
      if ok then (true, m'', tx, w + w2)
      else
        let (r, m3, txs, w3) := srr_go sendOk packet now fuel m''
        (r, m3, tx ++ txs, w + w2 + w3)

/-- `LinkManager::send_round_robin(packet)`. -/
def send_round_robin (m : LinkManager) (sendOk : Nat → Bool)
    (packet : List Nat) (now : Nat) : LinkManager × List Tx × Nat :=
  let len := m.links.length
  if len = 0 then (m, [], 0)
  else
    let (ok, m', txs, w) := srr_go sendOk packet now len m
    if ok then (m', txs, w)
    else
      let (ok2, m'', txs2, w2) := m'.send_any sendOk packet now
      if ok2 then (m'', txs ++ txs2, w + w2)
      else (m'', txs ++ txs2, w + w2 + 1)

/-- The `iter_mut().enumerate()` fold of `best_failover_index`: carries the
best `(index, weight)` seen so far; a candidate replaces it only with a
strictly higher weight. -/
def bfi_go (now : Nat) : List Nat → Option (Nat × Nat) → LinkManager →
    Option (Nat × Nat) × LinkManager × Nat
  | [], best, m => (best, m, 0)
  | i :: rest, best, m =>
    match m.links[i]? with
    | none => bfi_go now rest best m
    | some l =>
      let (ok, l', w) := l.is_available now m.error_backoff m.health_timeout
      let m1 : LinkManager := { m with links := m.links.set i l' }
      let best' :=
        if ok = false then best
        else
          match best with
          | some (j, bw) => if bw ≥ l.weight then some (j, bw) else some (i, l.weight)
          | none => some (i, l.weight)
      let (b, m2, w') := bfi_go now rest best' m1
      (b, m2, w + w')

/-- `LinkManager::best_failover_index(now)`. -/
def best_failover_index (m : LinkManager) (now : Nat) :
    Option Nat × LinkManager × Nat :=
  let (b, m', w) := bfi_go now (List.range m.links.length) none m
  (b.map Prod.fst, m', w)

/-- `LinkManager::send_failover(packet)`. -/
def send_failover (m : LinkManager) (sendOk : Nat → Bool) (packet : List Nat)
    (now : Nat) : LinkManager × List Tx × Nat :=
  let fallback := fun (m0 : LinkManager) (txs0 : List Tx) (w0 : Nat) =>
    let (ok2, m'', txs2, w2) := m0.send_any sendOk packet now
    if ok2 then (m'', txs0 ++ txs2, w0 + w2)
    else (m'', txs0 ++ txs2, w0 + w2 + 1)
  match m.best_failover_index now with
  | (some index, m', w) =>
    let (ok, m'', tx, w2) := m'.send_to_link sendOk index packet now
    if ok then (m'', tx, w + w2)
    else fallback m'' tx (w + w2)
  | (none, m', w) => fallback m' [] w

/-- `LinkManager::send_packet(packet)`: classify by Noise message type and
dispatch. -/
def send_packet (m : LinkManager) (sendOk : Nat → Bool) (packet : List Nat)
    (now : Nat) : LinkManager × List Tx × Nat :=
  let byMode : LinkManager × List Tx × Nat :=
    match m.mode with
    | BondingMode.Aggregate => m.send_round_robin sendOk packet now
    | BondingMode.Redundant => m.send_all sendOk packet now
    | BondingMode.Failover => m.send_failover sendOk packet now
  match wg_packet_type packet with
  | some t =>
    if 1 ≤ t ∧ t ≤ 3 then m.send_all sendOk packet now
    else if t = 4 ∧ packet.length = WG_KEEPALIVE_LEN then m.send_all sendOk packet now
    else byMode
  | none => byMode

/-- The ping loop of `send_health_pings`: `send_probe` each link, and
`record_ping` on those whose probe send succeeded. -/
def shp_go (sendOk : Nat → Bool) (packet : List Nat) (now : Nat) :
    List Nat → LinkManager → LinkManager × List Tx × Nat
  | [], m => (m, [], 0)
  | i :: rest, m =>
    let (ok, m', tx, w) := m.send_probe sendOk i packet now
    let m'' :=
      if ok then
        match m'.links[i]? with
        | some l => { m' with links := m'.links.set i (l.record_ping now) }
        | none => m'
      else m'
    let (m3, txs, w') := shp_go sendOk packet now rest m''
    (m3, tx ++ txs, w + w')

/-- `LinkManager::send_health_pings(epoch)`: `epoch_ms` is
`epoch.elapsed().as_millis()` at the call. -/
def send_health_pings (m : LinkManager) (sendOk : Nat → Bool)
    (epoch_ms : Nat) (now : Nat) : LinkManager × List Tx × Nat :=
  let packet := build_control_packet BOND_PING epoch_ms
  shp_go sendOk packet now (List.range m.links.length) m

/-- `LinkManager::handle_control_packet(link_index, data, epoch)`: returns
whether the datagram was consumed as a control frame, plus the new state,
probe transmissions and warnings. `epoch_ms` is `epoch.elapsed()` in ms. -/
def handle_control_packet (m : LinkManager) (sendOk : Nat → Bool)
    (link_index : Nat) (data : List Nat) (epoch_ms : Nat) (now : Nat) :
    Bool × LinkManager × List Tx × Nat :=
  match parse_control_packet data with
  | none => (false, m, [], 0)
  | some (message_type, token) =>
    if message_type = BOND_PING then
      let (_, m', tx, w) :=
        m.send_probe sendOk link_index (build_control_packet BOND_PONG token) now
      (true, m', tx, w)
    else if message_type = BOND_PONG then
      match m.links[link_index]? with
      | some l =>
        if epoch_ms ≥ token then
          (true, { m with links := m.links.set link_index (l.record_rtt (epoch_ms - token)) }, [], 0)
        else (true, m, [], 0)
      | none => (true, m, [], 0)
    else (true, m, [], 0)

end LinkManager

/-- The gatekeeping step of `handle_incoming`: the bytes that reach
`tunnel.decapsulate`, or `none` when `handle_control_packet` consumed the
datagram. -/
def noise_input (m : LinkManager) (sendOk : Nat → Bool) (link_index : Nat)
    (data : List Nat) (epoch_ms : Nat) (now : Nat) : Option (List Nat) :=
  if (m.handle_control_packet sendOk link_index data epoch_ms now).1 then none
  else some data

/-! Spec-side observation helpers (used only to state theorems). -/

/-- The health-expiry condition of `is_available` step 2, as a predicate. -/
def healthExpired (l : Link) (now : Nat) (health_timeout : Option Nat) : Bool :=
  match health_timeout with
  | some timeout =>
    match l.last_rx, l.last_ping_sent with
    | some t, _ => now - t > timeout
    | none, some t => now - t > timeout
    | none, none => false
  | none => false

/-- The availability verdict of link `i` of `m` at `now` (the Bool
`is_available` returns), `false` for an out-of-range index. -/
def availableAt (m : LinkManager) (now : Nat) (i : Nat) : Bool :=
  match m.links[i]? with
  | some l => (l.is_available now m.error_backoff m.health_timeout).1
  | none => false

/-- How many links of `m` are available at `now`. -/
def availableCount (m : LinkManager) (now : Nat) : Nat :=
  ((List.range m.links.length).filter (fun i => availableAt m now i)).length

/-- Whether link `i` of `m` has a remote endpoint. -/
def remoteSomeAt (m : LinkManager) (i : Nat) : Bool :=
  match m.links[i]? with
  | some l => l.remote.isSome
  | none => false

/-- `send_packet` falls through to the bonding-mode dispatch on this packet
(neither a handshake type 1–3 nor a length-32 type-4 keepalive). -/
def uses_bonding_mode (packet : List Nat) : Bool :=
  match wg_packet_type packet with
  | some t =>
    if 1 ≤ t ∧ t ≤ 3 then false
    else if t = 4 ∧ packet.length = WG_KEEPALIVE_LEN then false
    else true
  | none => true

/-! Abstract weighted round-robin scheduler: `next_weighted_index` restricted
to the steady state in which every link is available, every weight is
positive and no send fails.  The state is `(next_index, remaining_weight)`;
each step emits the chosen link index. -/

/-- One scheduling step over weights `ws`: the state after choosing a link. -/
def rrStep (ws : List Nat) (s : Nat × Nat) : Nat × Nat :=
  let w := ws.getD s.1 0
  let rw := if s.2 = 0 then w else s.2
  if rw - 1 = 0 then ((s.1 + 1) % ws.length, 0) else (s.1, rw - 1)

/-- The link indices emitted by `n` consecutive scheduling steps. -/
def rrSeq (ws : List Nat) (s : Nat × Nat) : Nat → List Nat
  | 0 => []
  | n + 1 => s.1 :: rrSeq ws (rrStep ws s) n

/-- The scheduler state after `n` steps. -/
def rrIter (ws : List Nat) (s : Nat × Nat) : Nat → Nat × Nat
  | 0 => s
  | n + 1 => rrIter ws (rrStep ws s) n

/-- Scheduler-state invariant: cursor in range, remaining weight strictly
below the weight of the link under the cursor. -/
def rrInv (ws : List Nat) (s : Nat × Nat) : Prop :=
  s.1 < ws.length ∧ s.2 < ws.getD s.1 0

/-- The weights of `m`'s links, in link order. -/
def weightsOf (m : LinkManager) : List Nat :=
  m.links.map Link.weight

/-- `n` consecutive `send_packet` calls with the same payload; returns the
final manager and every transmission attempt in order. -/
def sendN (sendOk : Nat → Bool) (packet : List Nat) (now : Nat) :
    Nat → LinkManager → LinkManager × List Tx
  | 0, m => (m, [])
  | n + 1, m =>
    let (m', txs, _) := m.send_packet sendOk packet now
    let (m'', rest) := sendN sendOk packet now n m'
    (m'', txs ++ rest)

/-! Concrete example inputs for witnesses and counterexamples. -/

/-- A healthy link with remote endpoint `0` and the given weight. -/
def mkLink (w : Nat) : Link :=
  { remote := some 0, weight := w, down_since := none, last_rx := none,
    last_ping_sent := none, last_rtt_ms := none }

/-- A link with a remote endpoint that was marked down at time 100. -/
def exDownLink : Link :=
  { remote := some 0, weight := 1, down_since := some 100, last_rx := none,
    last_ping_sent := none, last_rtt_ms := none }

/-- A link with no remote endpoint. -/
def exNoneLink : Link :=
  { remote := none, weight := 1, down_since := none, last_rx := none,
    last_ping_sent := none, last_rtt_ms := none }

/-- A 36-byte type-4 transport datagram (data, not keepalive). -/
def exDataPkt : List Nat := [4, 0, 0, 0] ++ List.replicate 32 0

/-- Redundant-mode manager with a single down-but-remoted link. -/
def exMgrRedDown : LinkManager :=
  { links := [exDownLink], mode := BondingMode.Redundant, error_backoff := 5000,
    health_timeout := none, next_index := 0, remaining_weight := 0 }

/-- Redundant-mode manager with one healthy link and one down link. -/
def exMgrRedMixed : LinkManager :=
  { links := [mkLink 1, exDownLink], mode := BondingMode.Redundant,
    error_backoff := 5000, health_timeout := none, next_index := 0,
    remaining_weight := 0 }

/-- Aggregate-mode manager with healthy links of weights 3, 1, 2. -/
def exMgr312 : LinkManager :=
  { links := [mkLink 3, mkLink 1, mkLink 2], mode := BondingMode.Aggregate,
    error_backoff := 5000, health_timeout := none, next_index := 0,
    remaining_weight := 0 }

/-- Aggregate-mode manager with one remote-less link. -/
def exMgrNone : LinkManager :=
  { links := [exNoneLink], mode := BondingMode.Aggregate, error_backoff := 5,
    health_timeout := some 10, next_index := 0, remaining_weight := 0 }

/-- Aggregate-mode manager with a single down-but-remoted link. -/
def exMgrAggDown : LinkManager :=
  { links := [exDownLink], mode := BondingMode.Aggregate, error_backoff := 5000,
    health_timeout := none, next_index := 0, remaining_weight := 0 }

/-- Aggregate-mode manager with a single healthy link. -/
def exMgrOne : LinkManager :=
  { links := [mkLink 1], mode := BondingMode.Aggregate, error_backoff := 5000,
    health_timeout := none, next_index := 0, remaining_weight := 0 }

/-- A link with a remote that has received a packet at time 0. -/
def exStale : Link :=
  { remote := some 0, weight := 1, down_since := none, last_rx := some 0,
    last_ping_sent := none, last_rtt_ms := none }

/-- A 12-byte type-1 datagram (Noise handshake initiation). -/
def exHsPkt : List Nat := [1, 0, 0, 0] ++ List.replicate 8 0

/-- Aggregate-mode manager with one remoted link and one remote-less link. -/
def exMgrMix : LinkManager :=
  { links := [mkLink 1, exNoneLink], mode := BondingMode.Aggregate,
    error_backoff := 5000, health_timeout := none, next_index := 0,
    remaining_weight := 0 }

/-- Steady state for Aggregate mode: every link has a remote, none is down,
health probing is off, all weights positive, every send succeeds. -/
def steady (m : LinkManager) (sendOk : Nat → Bool) : Prop :=
  m.mode = BondingMode.Aggregate ∧ m.health_timeout = none ∧ m.links ≠ [] ∧
  (∀ l ∈ m.links, l.remote.isSome = true ∧ l.down_since = none ∧ 1 ≤ l.weight) ∧
  (∀ i, sendOk i = true)

/-! Shared helper lemmas. -/

/-- Setting a list entry to the value it already holds is the identity. -/
theorem set_getElem?_self {α : Type} (l : List α) (i : Nat) (x : α)
    (h : l[i]? = some x) : l.set i x = l := by
  induction l generalizing i with
  | nil => simp at h
  | cons a t ih =>
    cases i with
    | zero => simp_all
    | succ n => simp_all [List.set]

/-- Big-endian round trip for 64-bit values. -/
theorem u64_be_round_trip (n : Nat) (h : n < 2 ^ 64) :
    u64_from_be_bytes (u64_to_be_bytes n) = n := by
  simp only [u64_from_be_bytes, u64_to_be_bytes, List.foldl]
  omega

/-- An available link has a remote endpoint. -/
theorem is_available_remote (l : Link) (now backoff : Nat) (tmo : Option Nat)
    (h : (l.is_available now backoff tmo).1 = true) : l.remote.isSome = true := by
  by_contra hr
  have : l.remote.isNone = true := by
    cases hrem : l.remote <;> simp_all
  simp [Link.is_available, this] at h

/-- `is_available` never changes the remote endpoint. -/
theorem is_available_remote_eq (l : Link) (now backoff : Nat)
    (tmo : Option Nat) :
    (l.is_available now backoff tmo).2.1.remote = l.remote := by
  cases l with
  | mk r w ds rx pg rt =>
    simp only [Link.is_available]
    cases r <;> cases tmo <;> cases rx <;> cases pg <;> cases ds <;>
      simp <;> split_ifs <;> rfl


/-- C5: `Link::is_available` returns false when `remote` is `None`; with health
probing enabled, a stale `last_rx` (or, lacking one, a stale `last_ping_sent`)
marks `down_since := now` and returns false, while a link with neither is not
marked down on silence; a `down_since` younger than the backoff forces false;
in all remaining cases the link is available. -/
theorem c5_is_available (l : Link) (now backoff : Nat) (tmo : Option Nat) :
    (l.remote = none → (l.is_available now backoff tmo).1 = false) ∧
    (l.remote.isSome = true → healthExpired l now tmo = true →
      (l.is_available now backoff tmo).1 = false ∧
      (l.is_available now backoff tmo).2.1.down_since = some now) ∧
    (l.remote.isSome = true → tmo.isSome = true → l.last_rx = none →
      l.last_ping_sent = none →
      (l.is_available now backoff tmo).2.1.down_since = l.down_since) ∧
    (l.remote.isSome = true → healthExpired l now tmo = false →
      ∀ d, l.down_since = some d → now - d < backoff →
        (l.is_available now backoff tmo).1 = false) ∧
    (l.remote.isSome = true → healthExpired l now tmo = false →
      (∀ d, l.down_since = some d → backoff ≤ now - d) →
      (l.is_available now backoff tmo).1 = true) := by
  cases l with
  | mk r w ds rx pg rt =>
    refine ⟨fun h1 => ?_, fun h1 h2 => ?_, fun h1 h2 h3 h4 => ?_,
      fun h1 h2 d h3 h4 => ?_, fun h1 h2 h3 => ?_⟩ <;>
      cases r <;> cases tmo <;> cases rx <;> cases pg <;> cases ds <;>
        simp_all [Link.is_available, healthExpired] <;> split_ifs <;>
          first
          | rfl
          | (simp_all <;> omega)
          | omega

theorem hcp_fst (m : LinkManager) (sendOk : Nat → Bool) (i : Nat)
    (data : List Nat) (epoch now : Nat) :
    (m.handle_control_packet sendOk i data epoch now).1 =
      (parse_control_packet data).isSome := by
  unfold LinkManager.handle_control_packet
  cases h : parse_control_packet data with
  | none => simp
  | some p =>
    obtain ⟨mt, tok⟩ := p
    simp only [Option.isSome_some]
    split_ifs <;> first
    | rfl
    | (cases m.links[i]? <;> simp)

theorem parse_isSome_iff (data : List Nat) :
    (parse_control_packet data).isSome = true ↔
      (data.length = 13 ∧ data.take 4 = BOND_MAGIC) := by
  unfold parse_control_packet
  split_ifs with h1 h2 <;> simp_all [BOND_PACKET_LEN]

/-- C6: a received datagram of length exactly 13 whose first 4 bytes are the
magic `VTBD` makes `handle_control_packet` return true and never reaches Noise
decapsulation; every other datagram returns false and is forwarded to Noise
unchanged. -/
theorem c6_control_gate (m : LinkManager) (sendOk : Nat → Bool) (i : Nat)
    (data : List Nat) (epoch now : Nat) :
    (data.length = 13 → data.take 4 = BOND_MAGIC →
      (m.handle_control_packet sendOk i data epoch now).1 = true ∧
      noise_input m sendOk i data epoch now = none) ∧
    (¬(data.length = 13 ∧ data.take 4 = BOND_MAGIC) →
      (m.handle_control_packet sendOk i data epoch now).1 = false ∧
      noise_input m sendOk i data epoch now = some data) := by
  constructor
  · intro h1 h2
    have hs : (m.handle_control_packet sendOk i data epoch now).1 = true := by
      rw [hcp_fst, parse_isSome_iff]; exact ⟨h1, h2⟩
    exact ⟨hs, by simp [noise_input, hs]⟩
  · intro h
    have hs : (m.handle_control_packet sendOk i data epoch now).1 = false := by
      rw [hcp_fst]
      rw [Bool.eq_false_iff]
      intro hc
      exact h ((parse_isSome_iff data).mp hc)
    exact ⟨hs, by simp [noise_input, hs]⟩

theorem getElem?_lt {α : Type} (l : List α) (i : Nat) (x : α)
    (h : l[i]? = some x) : i < l.length := by
  by_contra hc
  rw [List.getElem?_eq_none (by omega)] at h
  exact Option.noConfusion h

/-- C8: handling a PONG frame carrying token `t` on a valid link index at
elapsed time `epoch` sets that link's `last_rtt_ms` to `epoch - t` when
`epoch ≥ t` and leaves the manager unchanged otherwise (witness: a PING token
500 answered at epoch+520 ms leaves an RTT of 20). -/
theorem c8_pong_rtt (m : LinkManager) (sendOk : Nat → Bool) (i : Nat) (l : Link)
    (data : List Nat) (t epoch now : Nat)
    (hp : parse_control_packet data = some (BOND_PONG, t))
    (hi : m.links[i]? = some l) :
    (epoch ≥ t →
      (m.handle_control_packet sendOk i data epoch now).2.1.links[i]? =
        some (l.record_rtt (epoch - t))) ∧
    (epoch < t →
      (m.handle_control_packet sendOk i data epoch now).2.1 = m) := by
  have hlen : i < m.links.length := getElem?_lt _ _ _ hi
  unfold LinkManager.handle_control_packet
  rw [hp]
  simp only [BOND_PING, BOND_PONG]
  norm_num
  rw [hi]
  constructor
  · intro hge
    simp only [hge, if_pos]
    rw [List.getElem?_set_self hlen]
  · intro hlt
    have : ¬ (epoch ≥ t) := by omega
    simp [this]

theorem send_to_link_getElem_ne (m : LinkManager) (sendOk : Nat → Bool)
    (j : Nat) (p : List Nat) (now i : Nat) (hne : j ≠ i) :
    (m.send_to_link sendOk j p now).2.1.links[i]? = m.links[i]? := by
  unfold LinkManager.send_to_link
  cases h : m.links[j]? with
  | none => rfl
  | some l =>
    dsimp only
    cases hr : l.remote with
    | none => rfl
    | some r =>
      dsimp only
      split_ifs <;> simp [List.getElem?_set_ne hne]

theorem shp_go_untouched (sendOk : Nat → Bool) (p : List Nat) (now i : Nat)
    (idxs : List Nat) (m : LinkManager) (h : i ∉ idxs) :
    (LinkManager.shp_go sendOk p now idxs m).1.links[i]? = m.links[i]? := by
  induction idxs generalizing m with
  | nil => rfl
  | cons j rest ih =>
    have hji : j ≠ i := fun hc => h (hc ▸ List.mem_cons_self j rest)
    have hrest : i ∉ rest := fun hc => h (List.mem_cons_of_mem j hc)
    unfold LinkManager.shp_go
    simp only [LinkManager.send_probe]
    cases hstl : m.send_to_link sendOk j p now with
    | mk ok rest' =>
      obtain ⟨m', tx, w⟩ := rest'
      have hpres : m'.links[i]? = m.links[i]? := by
        have hx := send_to_link_getElem_ne m sendOk j p now i hji
        rw [hstl] at hx; exact hx
      dsimp only
      cases ok with
      | false =>
        simp only [Bool.false_eq_true, if_false]
        rw [ih m' hrest, hpres]
      | true =>
        simp only [if_pos]
        cases hj : m'.links[j]? with
        | none =>
          dsimp only
          rw [ih m' hrest, hpres]
        | some l2 =>
          dsimp only
          rw [ih _ hrest]
          simp [List.getElem?_set_ne hji, hpres]

theorem shp_go_hit (sendOk : Nat → Bool) (p : List Nat) (now i : Nat)
    (idxs : List Nat) (m : LinkManager) (l : Link)
    (hnd : idxs.Nodup) (hmem : i ∈ idxs) (hi : m.links[i]? = some l)
    (hr : l.remote.isSome = true) (hok : sendOk i = true) :
    (LinkManager.shp_go sendOk p now idxs m).1.links[i]? =
      some ((l.record_send_ok).record_ping now) := by
  induction idxs generalizing m l with
  | nil => exact absurd hmem (List.not_mem_nil i)
  | cons j rest ih =>
    have hlen : i < m.links.length := getElem?_lt _ _ _ hi
    by_cases hij : j = i
    · subst hij
      have hnotrest : j ∉ rest := (List.nodup_cons.mp hnd).1
      unfold LinkManager.shp_go
      simp only [LinkManager.send_probe]
      obtain ⟨r, hrr⟩ := Option.isSome_iff_exists.mp hr
      have hstl : m.send_to_link sendOk j p now =
          (true, { m with links := m.links.set j l.record_send_ok }, [(j, p)], 0) := by
        unfold LinkManager.send_to_link
        rw [hi]
        dsimp only
        rw [hrr]
        dsimp only
        rw [if_pos hok]
      rw [hstl]
      dsimp only
      simp only [if_pos]
      have hset : ({ m with links := m.links.set j l.record_send_ok} : LinkManager).links[j]? =
          some l.record_send_ok := by
        simp [List.getElem?_set_self (by simpa using hlen)]
      rw [hset]
      dsimp only
      rw [shp_go_untouched sendOk p now j rest _ hnotrest]
      simp [List.getElem?_set_self, List.length_set, hlen]
    · have hmem' : i ∈ rest := by
        cases List.mem_cons.mp hmem with
        | inl hl => exact absurd hl.symm hij
        | inr hr2 => exact hr2
      have hnd' : rest.Nodup := (List.nodup_cons.mp hnd).2
      unfold LinkManager.shp_go
      simp only [LinkManager.send_probe]
      cases hstl : m.send_to_link sendOk j p now with
      | mk ok rest' =>
        obtain ⟨m', tx, w⟩ := rest'
        have hpres : m'.links[i]? = some l := by
          have hx := send_to_link_getElem_ne m sendOk j p now i hij
          rw [hstl] at hx; rw [hx]; exact hi
        dsimp only
        cases ok with
        | false =>
          simp only [Bool.false_eq_true, if_false]
          exact ih _ _ hnd' hmem' hpres hr
        | true =>
          simp only [if_pos]
          cases hj : m'.links[j]? with
          | none =>
            dsimp only
            exact ih _ _ hnd' hmem' hpres hr
          | some l2 =>
            dsimp only
            refine ih _ _ hnd' hmem' ?_ hr
            rw [List.getElem?_set_ne hij]
            exact hpres

theorem stl_rsa (m : LinkManager) (sendOk : Nat → Bool) (j : Nat)
    (p : List Nat) (now i : Nat) :
    remoteSomeAt (m.send_to_link sendOk j p now).2.1 i = remoteSomeAt m i := by
  by_cases hij : j = i
  · subst hij
    unfold LinkManager.send_to_link
    cases h : m.links[j]? with
    | none => rfl
    | some l =>
      dsimp only
      cases hr : l.remote with
      | none => rfl
      | some r =>
        have hlen : j < m.links.length := getElem?_lt _ _ _ h
        dsimp only
        split_ifs <;>
          simp [remoteSomeAt, List.getElem?_set_self (by simpa using hlen), h,
            Link.record_send_ok, Link.record_send_error, hr]
  · unfold remoteSomeAt
    rw [send_to_link_getElem_ne m sendOk j p now i hij]

theorem stl_tx (m : LinkManager) (sendOk : Nat → Bool) (j : Nat)
    (p : List Nat) (now : Nat) (ab : Tx)
    (h : ab ∈ (m.send_to_link sendOk j p now).2.2.1) :
    ab = (j, p) ∧ remoteSomeAt m j = true := by
  unfold LinkManager.send_to_link at h
  cases hj : m.links[j]? with
  | none => rw [hj] at h; simp at h
  | some l =>
    rw [hj] at h
    dsimp only at h
    cases hr : l.remote with
    | none => rw [hr] at h; simp at h
    | some r =>
      rw [hr] at h
      dsimp only at h
      constructor
      · split_ifs at h <;> simpa using h
      · simp [remoteSomeAt, hj, hr]

theorem sall_go_spec (sendOk : Nat → Bool) (p : List Nat) (now : Nat)
    (idxs : List Nat) (m : LinkManager) :
    (∀ i, remoteSomeAt (LinkManager.send_all_go sendOk p now idxs m).2.1 i = remoteSomeAt m i) ∧
    (∀ ab ∈ (LinkManager.send_all_go sendOk p now idxs m).2.2.1,
      ab.2 = p ∧ ab.1 ∈ idxs ∧ remoteSomeAt m ab.1 = true) := by
  induction idxs generalizing m with
  | nil => exact ⟨fun i => rfl, fun ab hab => absurd hab (List.not_mem_nil ab)⟩
  | cons j rest ih =>
    unfold LinkManager.send_all_go
    cases hstl : m.send_to_link sendOk j p now with
    | mk ok rest' =>
      obtain ⟨m', tx, w⟩ := rest'
      dsimp only
      have hrsa : ∀ i, remoteSomeAt m' i = remoteSomeAt m i := by
        intro i
        have hx := stl_rsa m sendOk j p now i
        rw [hstl] at hx; exact hx
      obtain ⟨ih1, ih2⟩ := ih m'
      constructor
      · intro i; rw [ih1 i, hrsa i]
      · intro ab hab
        rw [List.mem_append] at hab
        cases hab with
        | inl h1 =>
          have hx := stl_tx m sendOk j p now ab (by rw [hstl]; exact h1)
          exact ⟨by rw [hx.1], by rw [hx.1]; exact List.mem_cons_self j rest,
            by rw [hx.1]; exact hx.2⟩
        | inr h2 =>
          have := ih2 ab h2
          exact ⟨this.1, List.mem_cons_of_mem j this.2.1, by rw [← hrsa ab.1]; exact this.2.2⟩

theorem sany_go_spec (sendOk : Nat → Bool) (p : List Nat) (now : Nat)
    (idxs : List Nat) (m : LinkManager) :
    (∀ i, remoteSomeAt (LinkManager.send_any_go sendOk p now idxs m).2.1 i = remoteSomeAt m i) ∧
    (∀ ab ∈ (LinkManager.send_any_go sendOk p now idxs m).2.2.1,
      ab.2 = p ∧ ab.1 ∈ idxs ∧ remoteSomeAt m ab.1 = true) := by
  induction idxs generalizing m with
  | nil => exact ⟨fun i => rfl, fun ab hab => absurd hab (List.not_mem_nil ab)⟩
  | cons j rest ih =>
    unfold LinkManager.send_any_go
    cases hstl : m.send_to_link sendOk j p now with
    | mk ok rest' =>
      obtain ⟨m', tx, w⟩ := rest'
      have hrsa : ∀ i, remoteSomeAt m' i = remoteSomeAt m i := by
        intro i
        have hx := stl_rsa m sendOk j p now i
        rw [hstl] at hx; exact hx
      have htx : ∀ ab ∈ tx, ab = (j, p) ∧ remoteSomeAt m j = true := by
        intro ab hab
        exact stl_tx m sendOk j p now ab (by rw [hstl]; exact hab)
      dsimp only
      cases ok with
      | true =>
        simp only [if_pos]
        refine ⟨hrsa, fun ab hab => ?_⟩
        have := htx ab hab
        exact ⟨by rw [this.1], by rw [this.1]; exact List.mem_cons_self j rest,
          by rw [this.1]; exact this.2⟩
      | false =>
        simp only [Bool.false_eq_true, if_false]
        obtain ⟨ih1, ih2⟩ := ih m'
        refine ⟨fun i => by rw [ih1 i, hrsa i], fun ab hab => ?_⟩
        rw [List.mem_append] at hab
        cases hab with
        | inl h1 =>
          have := htx ab h1
          exact ⟨by rw [this.1], by rw [this.1]; exact List.mem_cons_self j rest,
            by rw [this.1]; exact this.2⟩
        | inr h2 =>
          have := ih2 ab h2
          exact ⟨this.1, List.mem_cons_of_mem j this.2.1, by rw [← hrsa ab.1]; exact this.2.2⟩

theorem set_rsa (m : LinkManager) (j : Nat) (l l' : Link)
    (hj : m.links[j]? = some l) (hr : l'.remote = l.remote) (i : Nat) :
    remoteSomeAt { m with links := m.links.set j l' } i = remoteSomeAt m i := by
  by_cases hij : j = i
  · subst hij
    simp [remoteSomeAt, List.getElem?_set_self (getElem?_lt _ _ _ hj), hj, hr]
  · simp [remoteSomeAt, List.getElem?_set_ne hij]

theorem rsa_links_eq (m m2 : LinkManager) (h : m2.links = m.links) (i : Nat) :
    remoteSomeAt m2 i = remoteSomeAt m i := by
  simp [remoteSomeAt, h]

theorem rsa_set (m m2 : LinkManager) (j : Nat) (l l' : Link)
    (hj : m.links[j]? = some l) (hr : l'.remote = l.remote)
    (h2 : m2.links = m.links.set j l') (i : Nat) :
    remoteSomeAt m2 i = remoteSomeAt m i := by
  rw [rsa_links_eq { m with links := m.links.set j l' } m2 h2 i]
  exact set_rsa m j l l' hj hr i

theorem nwi_go_rsa (now : Nat) (fuel : Nat) (m : LinkManager) :
    ∀ i, remoteSomeAt (LinkManager.nwi_go now fuel m).2.1 i = remoteSomeAt m i := by
  induction fuel generalizing m with
  | zero => exact fun i => rfl
  | succ fuel ih =>
    intro i
    unfold LinkManager.nwi_go
    dsimp only
    cases hj : m.links[m.next_index % m.links.length]? with
    | none => rfl
    | some l =>
      dsimp only
      cases hav : l.is_available now m.error_backoff m.health_timeout with
      | mk ok rest' =>
        obtain ⟨l', w⟩ := rest'
        have hrem : l'.remote = l.remote := by
          have hx := is_available_remote_eq l now m.error_backoff m.health_timeout
          rw [hav] at hx; exact hx
        have hset : ∀ m2 : LinkManager,
            m2.links = m.links.set (m.next_index % m.links.length) l' →
            ∀ i2, remoteSomeAt m2 i2 = remoteSomeAt m i2 :=
          fun m2 h2 => rsa_set m m2 _ l l' hj hrem h2
        dsimp only
        split_ifs <;> dsimp only <;>
          first
          | (rw [ih _ i]; exact hset _ rfl i)
          | exact hset _ rfl i

theorem nwi_rsa (m : LinkManager) (now : Nat) :
    ∀ i, remoteSomeAt (m.next_weighted_index now).2.1 i = remoteSomeAt m i := by
  intro i
  unfold LinkManager.next_weighted_index
  split_ifs with h
  · rfl
  · exact nwi_go_rsa now m.links.length m i

theorem srr_go_spec (sendOk : Nat → Bool) (p : List Nat) (now : Nat)
    (fuel : Nat) (m : LinkManager) :
    (∀ i, remoteSomeAt (LinkManager.srr_go sendOk p now fuel m).2.1 i = remoteSomeAt m i) ∧
    (∀ ab ∈ (LinkManager.srr_go sendOk p now fuel m).2.2.1,
      ab.2 = p ∧ remoteSomeAt m ab.1 = true) := by
  induction fuel generalizing m with
  | zero => exact ⟨fun i => rfl, fun ab hab => absurd hab (List.not_mem_nil ab)⟩
  | succ fuel ih =>
    unfold LinkManager.srr_go
    cases hnwi : m.next_weighted_index now with
    | mk r rest' =>
      obtain ⟨m', w⟩ := rest'
      have hrsa1 : ∀ i, remoteSomeAt m' i = remoteSomeAt m i := by
        intro i
        have hx := nwi_rsa m now i
        rw [hnwi] at hx; exact hx
      cases r with
      | none => exact ⟨hrsa1, fun ab hab => absurd hab (List.not_mem_nil ab)⟩
      | some index =>
        dsimp only
        cases hstl : m'.send_to_link sendOk index p now with
        | mk ok rest2 =>
          obtain ⟨m'', tx, w2⟩ := rest2
          have hrsa2 : ∀ i, remoteSomeAt m'' i = remoteSomeAt m' i := by
            intro i
            have hx := stl_rsa m' sendOk index p now i
            rw [hstl] at hx; exact hx
          have htx : ∀ ab ∈ tx, ab.2 = p ∧ remoteSomeAt m ab.1 = true := by
            intro ab hab
            have hx := stl_tx m' sendOk index p now ab (by rw [hstl]; exact hab)
            refine ⟨by rw [hx.1], ?_⟩
            rw [hx.1]
            rw [← hrsa1 index]
            exact hx.2
          dsimp only
          cases ok with
          | true =>
            simp only [if_pos]
            exact ⟨fun i => by rw [hrsa2 i, hrsa1 i], htx⟩
          | false =>
            simp only [Bool.false_eq_true, if_false]
            obtain ⟨ih1, ih2⟩ := ih m''
            refine ⟨fun i => by rw [ih1 i, hrsa2 i, hrsa1 i], fun ab hab => ?_⟩
            rw [List.mem_append] at hab
            cases hab with
            | inl h1 => exact htx ab h1
            | inr h2 =>
              have := ih2 ab h2
              refine ⟨this.1, ?_⟩
              rw [← hrsa1 ab.1, ← hrsa2 ab.1]
              exact this.2

theorem bfi_go_rsa (now : Nat) (idxs : List Nat) (best : Option (Nat × Nat))
    (m : LinkManager) :
    ∀ i, remoteSomeAt (LinkManager.bfi_go now idxs best m).2.1 i = remoteSomeAt m i := by
  induction idxs generalizing best m with
  | nil => exact fun i => rfl
  | cons j rest ih =>
    intro i
    unfold LinkManager.bfi_go
    cases hj : m.links[j]? with
    | none => exact ih best m i
    | some l =>
      dsimp only
      cases hav : l.is_available now m.error_backoff m.health_timeout with
      | mk ok rest' =>
        obtain ⟨l', w⟩ := rest'
        have hrem : l'.remote = l.remote := by
          have hx := is_available_remote_eq l now m.error_backoff m.health_timeout
          rw [hav] at hx; exact hx
        dsimp only
        rw [ih _ _ i]
        exact set_rsa m j l l' hj hrem i

theorem shp_go_spec (sendOk : Nat → Bool) (p : List Nat) (now : Nat)
    (idxs : List Nat) (m : LinkManager) :
    (∀ i, remoteSomeAt (LinkManager.shp_go sendOk p now idxs m).1 i = remoteSomeAt m i) ∧
    (∀ ab ∈ (LinkManager.shp_go sendOk p now idxs m).2.1,
      ab.2 = p ∧ remoteSomeAt m ab.1 = true) := by
  induction idxs generalizing m with
  | nil => exact ⟨fun i => rfl, fun ab hab => absurd hab (List.not_mem_nil ab)⟩
  | cons j rest ih =>
    unfold LinkManager.shp_go
    simp only [LinkManager.send_probe]
    cases hstl : m.send_to_link sendOk j p now with
    | mk ok rest' =>
      obtain ⟨m', tx, w⟩ := rest'
      have hrsa1 : ∀ i, remoteSomeAt m' i = remoteSomeAt m i := by
        intro i
        have hx := stl_rsa m sendOk j p now i
        rw [hstl] at hx; exact hx
      have htx : ∀ ab ∈ tx, ab.2 = p ∧ remoteSomeAt m ab.1 = true := by
        intro ab hab
        have hx := stl_tx m sendOk j p now ab (by rw [hstl]; exact hab)
        refine ⟨by rw [hx.1], by rw [hx.1]; exact hx.2⟩
      dsimp only
      have main : ∀ m2 : LinkManager, (∀ i, remoteSomeAt m2 i = remoteSomeAt m i) →
          (∀ i, remoteSomeAt (LinkManager.shp_go sendOk p now rest m2).1 i = remoteSomeAt m i) ∧
          (∀ ab ∈ (LinkManager.shp_go sendOk p now rest m2).2.1,
            ab.2 = p ∧ remoteSomeAt m ab.1 = true) := by
        intro m2 h2
        obtain ⟨ih1, ih2⟩ := ih m2
        refine ⟨fun i => by rw [ih1 i, h2 i], fun ab hab => ?_⟩
        have := ih2 ab hab
        exact ⟨this.1, by rw [← h2 ab.1]; exact this.2⟩
      cases ok with
      | false =>
        simp only [Bool.false_eq_true, if_false]
        obtain ⟨g1, g2⟩ := main m' hrsa1
        refine ⟨g1, fun ab hab => ?_⟩
        rw [List.mem_append] at hab
        cases hab with
        | inl h1 => exact htx ab h1
        | inr h2 => exact g2 ab h2
      | true =>
        simp only [if_pos]
        cases hj : m'.links[j]? with
        | none =>
          dsimp only
          obtain ⟨g1, g2⟩ := main m' hrsa1
          refine ⟨g1, fun ab hab => ?_⟩
          rw [List.mem_append] at hab
          cases hab with
          | inl h1 => exact htx ab h1
          | inr h2 => exact g2 ab h2
        | some l2 =>
          dsimp only
          have hrsa2 : ∀ i, remoteSomeAt { m' with links := m'.links.set j (l2.record_ping now) } i = remoteSomeAt m i := by
            intro i
            rw [set_rsa m' j l2 (l2.record_ping now) hj rfl i]
            exact hrsa1 i
          obtain ⟨g1, g2⟩ := main _ hrsa2
          refine ⟨g1, fun ab hab => ?_⟩
          rw [List.mem_append] at hab
          cases hab with
          | inl h1 => exact htx ab h1
          | inr h2 => exact g2 ab h2

theorem stl_attempt (m : LinkManager) (sendOk : Nat → Bool) (j : Nat)
    (p : List Nat) (now : Nat) (hr : remoteSomeAt m j = true) :
    (m.send_to_link sendOk j p now).2.2.1 = [(j, p)] := by
  unfold remoteSomeAt at hr
  cases hj : m.links[j]? with
  | none => rw [hj] at hr; exact absurd hr (by simp)
  | some l =>
    rw [hj] at hr
    dsimp only at hr
    unfold LinkManager.send_to_link
    rw [hj]
    dsimp only
    cases hrem : l.remote with
    | none => rw [hrem] at hr; exact absurd hr (by simp)
    | some r =>
      dsimp only
      split_ifs <;> rfl

theorem sall_go_mem (sendOk : Nat → Bool) (p : List Nat) (now : Nat)
    (idxs : List Nat) (m : LinkManager) (j : Nat) (hj : j ∈ idxs)
    (hr : remoteSomeAt m j = true) :
    (j, p) ∈ (LinkManager.send_all_go sendOk p now idxs m).2.2.1 := by
  induction idxs generalizing m with
  | nil => exact absurd hj (List.not_mem_nil j)
  | cons j' rest ih =>
    unfold LinkManager.send_all_go
    cases hstl : m.send_to_link sendOk j' p now with
    | mk ok rest' =>
      obtain ⟨m', tx, w⟩ := rest'
      dsimp only
      rw [List.mem_append]
      by_cases hjj : j = j'
      · subst hjj
        left
        have := stl_attempt m sendOk j p now hr
        rw [hstl] at this
        dsimp only at this
        rw [this]
        exact List.mem_singleton.mpr rfl
      · right
        have hmem : j ∈ rest := by
          cases List.mem_cons.mp hj with
          | inl h1 => exact absurd h1 hjj
          | inr h2 => exact h2
        refine ih m' hmem ?_
        have hx := stl_rsa m sendOk j' p now j
        rw [hstl] at hx
        rw [hx]
        exact hr

theorem send_all_mem (m : LinkManager) (sendOk : Nat → Bool) (p : List Nat)
    (now : Nat) (j : Nat) (hj : j < m.links.length)
    (hr : remoteSomeAt m j = true) :
    (j, p) ∈ (m.send_all sendOk p now).2.1 := by
  unfold LinkManager.send_all
  cases hgo : LinkManager.send_all_go sendOk p now (List.range m.links.length) m with
  | mk sent rest' =>
    obtain ⟨m', txs, w⟩ := rest'
    have := sall_go_mem sendOk p now (List.range m.links.length) m j
      (List.mem_range.mpr hj) hr
    rw [hgo] at this
    dsimp only
    split_ifs <;> exact this

theorem send_all_tx (m : LinkManager) (sendOk : Nat → Bool) (p : List Nat)
    (now : Nat) :
    ∀ ab ∈ (m.send_all sendOk p now).2.1,
      ab.2 = p ∧ remoteSomeAt m ab.1 = true := by
  intro ab hab
  unfold LinkManager.send_all at hab
  cases hgo : LinkManager.send_all_go sendOk p now (List.range m.links.length) m with
  | mk sent rest' =>
    obtain ⟨m', txs, w⟩ := rest'
    rw [hgo] at hab
    dsimp only at hab
    have hmem : ab ∈ txs := by split_ifs at hab <;> exact hab
    have := (sall_go_spec sendOk p now (List.range m.links.length) m).2 ab
      (by rw [hgo]; exact hmem)
    exact ⟨this.1, this.2.2⟩

theorem availableAt_remoteSome (m : LinkManager) (now i : Nat)
    (h : availableAt m now i = true) : remoteSomeAt m i = true := by
  unfold availableAt at h
  unfold remoteSomeAt
  cases hj : m.links[i]? with
  | none => rw [hj] at h; exact absurd h (by simp)
  | some l =>
    rw [hj] at h
    exact is_available_remote l now m.error_backoff m.health_timeout h

theorem send_round_robin_tx (m : LinkManager) (sendOk : Nat → Bool)
    (p : List Nat) (now : Nat) :
    ∀ ab ∈ (m.send_round_robin sendOk p now).2.1,
      ab.2 = p ∧ remoteSomeAt m ab.1 = true := by
  intro ab hab
  unfold LinkManager.send_round_robin at hab
  dsimp only at hab
  by_cases h0 : m.links.length = 0
  · rw [if_pos h0] at hab
    exact absurd hab (List.not_mem_nil ab)
  · rw [if_neg h0] at hab
    cases hsrr : LinkManager.srr_go sendOk p now m.links.length m with
    | mk ok rest' =>
      obtain ⟨m', txs, w⟩ := rest'
      rw [hsrr] at hab
      dsimp only at hab
      have hsrr_spec := srr_go_spec sendOk p now m.links.length m
      rw [hsrr] at hsrr_spec
      obtain ⟨hrsa1, htx1⟩ := hsrr_spec
      cases ok with
      | true =>
        rw [if_pos rfl] at hab
        exact htx1 ab hab
      | false =>
        rw [if_neg Bool.false_ne_true] at hab
        cases hany : m'.send_any sendOk p now with
        | mk ok2 rest2 =>
          obtain ⟨m'', txs2, w2⟩ := rest2
          rw [hany] at hab
          dsimp only at hab
          have hany_spec := sany_go_spec sendOk p now (List.range m'.links.length) m'
          have hmem : ab ∈ txs ++ txs2 := by
            cases ok2 with
            | true => rw [if_pos rfl] at hab; exact hab
            | false => rw [if_neg Bool.false_ne_true] at hab; exact hab
          rw [List.mem_append] at hmem
          cases hmem with
          | inl h1 => exact htx1 ab h1
          | inr h2 =>
            have := hany_spec.2 ab (by
              show ab ∈ (m'.send_any sendOk p now).2.2.1
              rw [hany]; exact h2)
            exact ⟨this.1, by rw [← hrsa1 ab.1]; exact this.2.2⟩

theorem send_any_tx_of (m0 m : LinkManager) (sendOk : Nat → Bool)
    (p : List Nat) (now : Nat)
    (hm0 : ∀ i, remoteSomeAt m0 i = remoteSomeAt m i) :
    ∀ ab ∈ (m0.send_any sendOk p now).2.2.1,
      ab.2 = p ∧ remoteSomeAt m ab.1 = true := by
  intro ab hab
  have := (sany_go_spec sendOk p now (List.range m0.links.length) m0).2 ab hab
  exact ⟨this.1, by rw [← hm0 ab.1]; exact this.2.2⟩

theorem send_failover_tx (m : LinkManager) (sendOk : Nat → Bool)
    (p : List Nat) (now : Nat) :
    ∀ ab ∈ (m.send_failover sendOk p now).2.1,
      ab.2 = p ∧ remoteSomeAt m ab.1 = true := by
  intro ab hab
  unfold LinkManager.send_failover at hab
  cases hbfi : m.best_failover_index now with
  | mk r rest' =>
    obtain ⟨m', w⟩ := rest'
    rw [hbfi] at hab
    have hrsa1 : ∀ i, remoteSomeAt m' i = remoteSomeAt m i := by
      intro i
      unfold LinkManager.best_failover_index at hbfi
      cases hgo : LinkManager.bfi_go now (List.range m.links.length) none m with
      | mk b rest2 =>
        obtain ⟨m2, w2⟩ := rest2
        rw [hgo] at hbfi
        dsimp only at hbfi
        have hm : m' = m2 := (congrArg (fun x => x.2.1) hbfi).symm
        subst hm
        have := bfi_go_rsa now (List.range m.links.length) none m i
        rw [hgo] at this
        exact this
    cases r with
    | none =>
      dsimp only at hab
      cases hany : m'.send_any sendOk p now with
      | mk ok2 rest2 =>
        obtain ⟨m'', txs2, w2⟩ := rest2
        rw [hany] at hab
        dsimp only at hab
        have hmem : ab ∈ ([] : List Tx) ++ txs2 := by
          cases ok2 with
          | true => rw [if_pos rfl] at hab; exact hab
          | false => rw [if_neg Bool.false_ne_true] at hab; exact hab
        rw [List.nil_append] at hmem
        exact send_any_tx_of m' m sendOk p now hrsa1 ab (by rw [hany]; exact hmem)
    | some index =>
      dsimp only at hab
      cases hstl : m'.send_to_link sendOk index p now with
      | mk ok rest2 =>
        obtain ⟨m'', tx, w2⟩ := rest2
        rw [hstl] at hab
        dsimp only at hab
        have hrsa2 : ∀ i, remoteSomeAt m'' i = remoteSomeAt m i := by
          intro i
          have hx := stl_rsa m' sendOk index p now i
          rw [hstl] at hx
          rw [hx]
          exact hrsa1 i
        have htx : ∀ ab2 ∈ tx, ab2.2 = p ∧ remoteSomeAt m ab2.1 = true := by
          intro ab2 hab2
          have hx := stl_tx m' sendOk index p now ab2 (by rw [hstl]; exact hab2)
          refine ⟨by rw [hx.1], ?_⟩
          rw [hx.1, ← hrsa1 index]
          exact hx.2
        cases ok with
        | true =>
          rw [if_pos rfl] at hab
          exact htx ab hab
        | false =>
          rw [if_neg Bool.false_ne_true] at hab
          cases hany : m''.send_any sendOk p now with
          | mk ok2 rest3 =>
            obtain ⟨m3, txs3, w3⟩ := rest3
            rw [hany] at hab
            dsimp only at hab
            have hmem : ab ∈ tx ++ txs3 := by
              cases ok2 with
              | true => rw [if_pos rfl] at hab; exact hab
              | false => rw [if_neg Bool.false_ne_true] at hab; exact hab
            rw [List.mem_append] at hmem
            cases hmem with
            | inl h1 => exact htx ab h1
            | inr h2 =>
              exact send_any_tx_of m'' m sendOk p now hrsa2 ab (by rw [hany]; exact h2)

theorem by_mode_tx (m : LinkManager) (sendOk : Nat → Bool) (p : List Nat)
    (now : Nat) :
    ∀ ab ∈ (match m.mode with
      | BondingMode.Aggregate => m.send_round_robin sendOk p now
      | BondingMode.Redundant => m.send_all sendOk p now
      | BondingMode.Failover => m.send_failover sendOk p now).2.1,
      ab.2 = p ∧ remoteSomeAt m ab.1 = true := by
  intro ab hab
  cases hmode : m.mode with
  | Aggregate => rw [hmode] at hab; exact send_round_robin_tx m sendOk p now ab hab
  | Redundant => rw [hmode] at hab; exact send_all_tx m sendOk p now ab hab
  | Failover => rw [hmode] at hab; exact send_failover_tx m sendOk p now ab hab

theorem send_packet_tx (m : LinkManager) (sendOk : Nat → Bool) (p : List Nat)
    (now : Nat) :
    ∀ ab ∈ (m.send_packet sendOk p now).2.1,
      ab.2 = p ∧ remoteSomeAt m ab.1 = true := by
  intro ab hab
  unfold LinkManager.send_packet at hab
  dsimp only at hab
  cases hw : wg_packet_type p with
  | none =>
    rw [hw] at hab
    exact by_mode_tx m sendOk p now ab hab
  | some t =>
    rw [hw] at hab
    dsimp only at hab
    by_cases h1 : 1 ≤ t ∧ t ≤ 3
    · rw [if_pos h1] at hab
      exact send_all_tx m sendOk p now ab hab
    · rw [if_neg h1] at hab
      by_cases h2 : t = 4 ∧ p.length = WG_KEEPALIVE_LEN
      · rw [if_pos h2] at hab
        exact send_all_tx m sendOk p now ab hab
      · rw [if_neg h2] at hab
        exact by_mode_tx m sendOk p now ab hab

theorem send_health_pings_tx (m : LinkManager) (sendOk : Nat → Bool)
    (epoch now : Nat) :
    ∀ ab ∈ (m.send_health_pings sendOk epoch now).2.1,
      ab.2 = build_control_packet BOND_PING epoch ∧ remoteSomeAt m ab.1 = true := by
  intro ab hab
  exact (shp_go_spec sendOk (build_control_packet BOND_PING epoch) now
    (List.range m.links.length) m).2 ab hab

theorem hcp_tx (m : LinkManager) (sendOk : Nat → Bool) (li : Nat)
    (data : List Nat) (epoch now : Nat) :
    ∀ ab ∈ (m.handle_control_packet sendOk li data epoch now).2.2.1,
      remoteSomeAt m ab.1 = true := by
  intro ab hab
  unfold LinkManager.handle_control_packet at hab
  cases hp : parse_control_packet data with
  | none => rw [hp] at hab; exact absurd hab (List.not_mem_nil ab)
  | some pr =>
    obtain ⟨mt, tok⟩ := pr
    rw [hp] at hab
    dsimp only at hab
    by_cases hping : mt = BOND_PING
    · rw [if_pos hping] at hab
      cases hpr : m.send_probe sendOk li (build_control_packet BOND_PONG tok) now with
      | mk ok rest' =>
        obtain ⟨m', tx, w⟩ := rest'
        rw [hpr] at hab
        dsimp only at hab
        have := stl_tx m sendOk li (build_control_packet BOND_PONG tok) now ab
          (by show ab ∈ (m.send_to_link sendOk li _ now).2.2.1
              rw [← LinkManager.send_probe, hpr]; exact hab)
        rw [this.1]
        exact this.2
    · rw [if_neg hping] at hab
      by_cases hpong : mt = BOND_PONG
      · rw [if_pos hpong] at hab
        cases hl : m.links[li]? with
        | none => rw [hl] at hab; exact absurd hab (List.not_mem_nil ab)
        | some l =>
          rw [hl] at hab
          dsimp only at hab
          by_cases hge : epoch ≥ tok
          · rw [if_pos hge] at hab; exact absurd hab (List.not_mem_nil ab)
          · rw [if_neg hge] at hab; exact absurd hab (List.not_mem_nil ab)
      · rw [if_neg hpong] at hab
        exact absurd hab (List.not_mem_nil ab)

/-- C7: a link whose `remote` is `None` is never transmitted on by any
LinkManager operation: `send_packet` in any bonding mode (including all
fallback paths), `send_health_pings`, and `handle_control_packet`. -/
theorem c7_no_remote_never_sent (m : LinkManager) (sendOk : Nat → Bool)
    (packet data : List Nat) (li epoch now i : Nat)
    (h : remoteSomeAt m i = false) :
    (∀ ab ∈ (m.send_packet sendOk packet now).2.1, ab.1 ≠ i) ∧
    (∀ ab ∈ (m.send_health_pings sendOk epoch now).2.1, ab.1 ≠ i) ∧
    (∀ ab ∈ (m.handle_control_packet sendOk li data epoch now).2.2.1, ab.1 ≠ i) := by
  refine ⟨fun ab hab hc => ?_, fun ab hab hc => ?_, fun ab hab hc => ?_⟩
  · have hx := (send_packet_tx m sendOk packet now ab hab).2
    rw [hc, h] at hx
    exact Bool.noConfusion hx
  · have hx := (send_health_pings_tx m sendOk epoch now ab hab).2
    rw [hc, h] at hx
    exact Bool.noConfusion hx
  · have hx := hcp_tx m sendOk li data epoch now ab hab
    rw [hc, h] at hx
    exact Bool.noConfusion hx

/-- C4: for every datagram whose first four little-endian bytes decode to
Noise type 1, 2 or 3, and every type-4 datagram of total length exactly 32,
`send_packet` attempts a transmission on every available link, in every
bonding mode. -/
theorem c4_handshake_broadcast (m : LinkManager) (sendOk : Nat → Bool)
    (packet : List Nat) (now t i : Nat)
    (ht : wg_packet_type packet = some t)
    (hclass : (1 ≤ t ∧ t ≤ 3) ∨ (t = 4 ∧ packet.length = WG_KEEPALIVE_LEN))
    (hav : availableAt m now i = true) :
    (i, packet) ∈ (m.send_packet sendOk packet now).2.1 := by
  have hrs : remoteSomeAt m i = true := availableAt_remoteSome m now i hav
  have hlen : i < m.links.length := by
    unfold availableAt at hav
    cases hj : m.links[i]? with
    | none => rw [hj] at hav; exact absurd hav (by simp)
    | some l => exact getElem?_lt _ _ _ hj
  unfold LinkManager.send_packet
  dsimp only
  rw [ht]
  dsimp only
  cases hclass with
  | inl h1 =>
    rw [if_pos h1]
    exact send_all_mem m sendOk packet now i hlen hrs
  | inr h2 =>
    have hn13 : ¬(1 ≤ t ∧ t ≤ 3) := by omega
    rw [if_neg hn13, if_pos h2]
    exact send_all_mem m sendOk packet now i hlen hrs

/-- C10: for a link with `down_since` set and a remote endpoint, a
`send_health_pings` call whose UDP send on that link succeeds clears
`down_since` (and records the ping), so a health-timeout down state can be
recovered by a successful local ping transmission alone. -/
theorem c10_ping_recovery (m : LinkManager) (sendOk : Nat → Bool)
    (i : Nat) (l : Link) (d epoch now : Nat)
    (hi : m.links[i]? = some l) (hr : l.remote.isSome = true)
    (hd : l.down_since = some d) (hok : sendOk i = true) :
    (m.send_health_pings sendOk epoch now).1.links[i]? =
      some ((l.record_send_ok).record_ping now) ∧
    ((l.record_send_ok).record_ping now).down_since = none := by
  constructor
  · unfold LinkManager.send_health_pings
    exact shp_go_hit sendOk (build_control_packet BOND_PING epoch) now i
      (List.range m.links.length) m l (List.nodup_range _)
      (List.mem_range.mpr (getElem?_lt _ _ _ hi)) hi hr hok
  · rfl

theorem rrSeq_add (ws : List Nat) (s : Nat × Nat) (a b : Nat) :
    rrSeq ws s (a + b) = rrSeq ws s a ++ rrSeq ws (rrIter ws s a) b := by
  induction a generalizing s with
  | zero => simp [rrSeq, rrIter]
  | succ a ih =>
    have : a + 1 + b = (a + b) + 1 := by omega
    rw [show a + 1 + b = a + b + 1 from by omega]
    show rrSeq ws s (a + b + 1) = _
    have h1 : rrSeq ws s (a + b + 1) = s.1 :: rrSeq ws (rrStep ws s) (a + b) := rfl
    have h2 : rrSeq ws s (a + 1) = s.1 :: rrSeq ws (rrStep ws s) a := rfl
    have h3 : rrIter ws s (a + 1) = rrIter ws (rrStep ws s) a := rfl
    rw [h1, h2, h3, ih (rrStep ws s)]
    rfl

theorem rrIter_add (ws : List Nat) (s : Nat × Nat) (a b : Nat) :
    rrIter ws s (a + b) = rrIter ws (rrIter ws s a) b := by
  induction a generalizing s with
  | zero => rw [Nat.zero_add]; rfl
  | succ a ih =>
    rw [show a + 1 + b = a + b + 1 from by omega]
    have h1 : rrIter ws s (a + b + 1) = rrIter ws (rrStep ws s) (a + b) := rfl
    have h3 : rrIter ws s (a + 1) = rrIter ws (rrStep ws s) a := rfl
    rw [h1, h3, ih (rrStep ws s)]

theorem rrL1 (ws : List Nat) (i : Nat) (r : Nat) (hr : 1 ≤ r) :
    rrSeq ws (i, r) r = List.replicate r i ∧
    rrIter ws (i, r) r = ((i + 1) % ws.length, 0) := by
  induction r with
  | zero => omega
  | succ r ih =>
    by_cases hr0 : r = 0
    · subst hr0
      have hstep : rrStep ws (i, 1) = ((i + 1) % ws.length, 0) := by
        simp [rrStep]
      constructor
      · show (i, 1).1 :: rrSeq ws (rrStep ws (i, 1)) 0 = _
        simp [rrSeq]
      · show rrIter ws (rrStep ws (i, 1)) 0 = _
        rw [hstep]; rfl
    · have hr1 : 1 ≤ r := by omega
      obtain ⟨ihs, ihi⟩ := ih hr1
      have hstep : rrStep ws (i, r + 1) = (i, r) := by
        simp only [rrStep]
        have : ¬(r + 1 = 0) := by omega
        rw [if_neg this]
        have : ¬(r + 1 - 1 = 0) := by omega
        rw [if_neg this]
        simp
      constructor
      · show (i, r + 1).1 :: rrSeq ws (rrStep ws (i, r + 1)) r = _
        rw [hstep, ihs]
        rfl
      · show rrIter ws (rrStep ws (i, r + 1)) r = _
        rw [hstep, ihi]

theorem rrL1' (ws : List Nat) (i : Nat) (t r : Nat) (ht : t < r) :
    rrSeq ws (i, r) t = List.replicate t i ∧
    rrIter ws (i, r) t = (i, r - t) := by
  induction t generalizing r with
  | zero => exact ⟨rfl, by show (i, r) = (i, r - 0); simp⟩
  | succ t ih =>
    have hstep : rrStep ws (i, r) = (i, r - 1) := by
      simp only [rrStep]
      have h1 : ¬(r = 0) := by omega
      rw [if_neg h1]
      have h2 : ¬(r - 1 = 0) := by omega
      rw [if_neg h2]
    have hih := ih (r - 1) (by omega)
    constructor
    · show (i, r).1 :: rrSeq ws (rrStep ws (i, r)) t = _
      rw [hstep, hih.1]
      rfl
    · show rrIter ws (rrStep ws (i, r)) t = _
      rw [hstep, hih.2]
      have : r - 1 - t = r - (t + 1) := by omega
      rw [this]

theorem rrL2 (ws : List Nat) (i : Nat) (hi : i < ws.length)
    (hw : 1 ≤ ws.getD i 0) :
    rrSeq ws (i, 0) (ws.getD i 0) = List.replicate (ws.getD i 0) i ∧
    rrIter ws (i, 0) (ws.getD i 0) = ((i + 1) % ws.length, 0) := by
  have hstep : rrStep ws (i, 0) =
      (if ws.getD i 0 - 1 = 0 then ((i + 1) % ws.length, 0) else (i, ws.getD i 0 - 1)) := by
    simp [rrStep]
  by_cases h1 : ws.getD i 0 = 1
  · rw [h1]
    rw [h1] at hstep
    simp only [Nat.sub_self, if_pos rfl] at hstep
    exact ⟨by show (i, 0).1 :: rrSeq ws (rrStep ws (i, 0)) 0 = _; simp [rrSeq],
      by show rrIter ws (rrStep ws (i, 0)) 0 = _; rw [hstep]; rfl⟩
  · have h2 : ¬(ws.getD i 0 - 1 = 0) := by omega
    rw [if_neg h2] at hstep
    have hlem := rrL1 ws i (ws.getD i 0 - 1) (by omega)
    have hsplit : ws.getD i 0 = (ws.getD i 0 - 1) + 1 := by omega
    constructor
    · rw [hsplit]
      show (i, 0).1 :: rrSeq ws (rrStep ws (i, 0)) (ws.getD i 0 - 1) = _
      rw [hstep, hlem.1]
      rw [← List.replicate_succ]
    · rw [hsplit]
      show rrIter ws (rrStep ws (i, 0)) (ws.getD i 0 - 1) = _
      rw [hstep, hlem.2]

theorem getD_eq_getElem (ws : List Nat) (i : Nat) (hi : i < ws.length) :
    ws.getD i 0 = ws[i] := by
  simp [List.getD, List.getElem?_eq_getElem hi]

theorem rrF (ws : List Nat) (hpos : ∀ w ∈ ws, 1 ≤ w) :
    ∀ d i, i < ws.length → ws.length - i = d →
    rrIter ws (i, 0) ((ws.drop i).sum) = (0, 0) ∧
    (∀ j, (rrSeq ws (i, 0) ((ws.drop i).sum)).count j =
      if i ≤ j ∧ j < ws.length then ws.getD j 0 else 0) := by
  intro d
  induction d with
  | zero => intro i hi hd; omega
  | succ d ih =>
    intro i hi hd
    have hgd : ws.getD i 0 = ws[i] := getD_eq_getElem ws i hi
    have hw : 1 ≤ ws.getD i 0 := by
      rw [hgd]; exact hpos ws[i] (List.getElem_mem hi)
    have hdrop : ws.drop i = ws[i] :: ws.drop (i + 1) := List.drop_eq_getElem_cons hi
    have hsum : (ws.drop i).sum = ws.getD i 0 + (ws.drop (i + 1)).sum := by
      rw [hdrop, List.sum_cons, hgd]
    obtain ⟨hl2s, hl2i⟩ := rrL2 ws i hi hw
    by_cases hlast : i + 1 = ws.length
    · have hdrop1 : ws.drop (i + 1) = [] := by
        rw [hlast]; exact List.drop_length ws
      have hsum1 : (ws.drop i).sum = ws.getD i 0 := by rw [hsum, hdrop1]; simp
      rw [hsum1]
      constructor
      · rw [hl2i, hlast, Nat.mod_self]
      · intro j
        rw [hl2s, List.count_replicate]
        by_cases hji : i = j
        · rw [if_pos (by simp [hji]), if_pos (by omega), hji]
        · rw [if_neg (by simp [hji]), if_neg (by omega)]
    · have hi1 : i + 1 < ws.length := by omega
      have hiter1 : rrIter ws (i, 0) (ws.getD i 0) = (i + 1, 0) := by
        rw [hl2i, Nat.mod_eq_of_lt hi1]
      obtain ⟨ihi2, ihs2⟩ := ih (i + 1) hi1 (by omega)
      constructor
      · rw [hsum, rrIter_add, hiter1, ihi2]
      · intro j
        rw [hsum, rrSeq_add, List.count_append, hl2s, hiter1, List.count_replicate,
          ihs2 j]
        by_cases hji : i = j
        · rw [if_pos (by simp [hji]), if_neg (by omega), if_pos (by omega), hji]
          omega
        · rw [if_neg (by simp [hji])]
          by_cases hcase : i + 1 ≤ j ∧ j < ws.length
          · rw [if_pos hcase, if_pos (by omega)]
            omega
          · rw [if_neg hcase, if_neg (by omega)]

theorem rrG (ws : List Nat) (hpos : ∀ w ∈ ws, 1 ≤ w) :
    ∀ i, i < ws.length → rrIter ws (0, 0) ((ws.take i).sum) = (i, 0) := by
  intro i
  induction i with
  | zero => intro hi; rfl
  | succ i ih =>
    intro hi1
    have hi : i < ws.length := by omega
    have hgd : ws.getD i 0 = ws[i] := getD_eq_getElem ws i hi
    have hw : 1 ≤ ws.getD i 0 := by
      rw [hgd]; exact hpos ws[i] (List.getElem_mem hi)
    have htake : (ws.take (i + 1)).sum = (ws.take i).sum + ws.getD i 0 := by
      rw [List.take_succ, List.sum_append, List.getElem?_eq_getElem hi, hgd]
      simp
    rw [htake, rrIter_add, ih hi, (rrL2 ws i hi hw).2, Nat.mod_eq_of_lt hi1]

theorem rrStep_cases (ws : List Nat) (i r : Nat) (h1 : i < ws.length)
    (h2 : r < ws.getD i 0) :
    rrStep ws (i, r) = ((i + 1) % ws.length, 0) ∨
    (∃ r2, rrStep ws (i, r) = (i, r2) ∧ 1 ≤ r2 ∧ r2 < ws.getD i 0) := by
  unfold rrStep
  dsimp only
  by_cases hr0 : r = 0
  · rw [if_pos hr0]
    by_cases hw1 : ws.getD i 0 - 1 = 0
    · rw [if_pos hw1]; left; rfl
    · rw [if_neg hw1]; right; exact ⟨_, rfl, by omega, by omega⟩
  · rw [if_neg hr0]
    by_cases hw1 : r - 1 = 0
    · rw [if_pos hw1]; left; rfl
    · rw [if_neg hw1]; right; exact ⟨_, rfl, by omega, by omega⟩

theorem rrInv_step (ws : List Nat) (hpos : ∀ w ∈ ws, 1 ≤ w) (s : Nat × Nat)
    (hs : rrInv ws s) : rrInv ws (rrStep ws s) := by
  obtain ⟨i, r⟩ := s
  obtain ⟨h1, h2⟩ := hs
  simp only at h1 h2
  have hlen : 0 < ws.length := by omega
  have hgetD : ∀ i2, i2 < ws.length → 1 ≤ ws.getD i2 0 := by
    intro i2 hi2
    rw [getD_eq_getElem ws i2 hi2]
    exact hpos ws[i2] (List.getElem_mem hi2)
  cases rrStep_cases ws i r h1 h2 with
  | inl h =>
    rw [h]
    exact ⟨Nat.mod_lt _ hlen, hgetD _ (Nat.mod_lt _ hlen)⟩
  | inr h =>
    obtain ⟨r2, hst, hr1, hr2⟩ := h
    rw [hst]
    exact ⟨h1, hr2⟩

theorem rrPeriod (ws : List Nat) (hpos : ∀ w ∈ ws, 1 ≤ w) (s : Nat × Nat)
    (hs : rrInv ws s) : rrIter ws s ws.sum = s := by
  obtain ⟨i, r⟩ := s
  obtain ⟨h1, h2⟩ := hs
  simp only at h1 h2
  have hgd : ws.getD i 0 = ws[i] := getD_eq_getElem ws i h1
  have hw : 1 ≤ ws.getD i 0 := by
    rw [hgd]; exact hpos ws[i] (List.getElem_mem h1)
  have hsplit : (ws.take i).sum + (ws.drop i).sum = ws.sum :=
    List.sum_take_add_sum_drop ws i
  by_cases hr : r = 0
  · subst hr
    have : ws.sum = (ws.drop i).sum + (ws.take i).sum := by omega
    rw [this, rrIter_add, (rrF ws hpos (ws.length - i) i h1 rfl).1, rrG ws hpos i h1]
  · have hr1 : 1 ≤ r := by omega
    have hdropsum : (ws.drop i).sum = ws.getD i 0 + (ws.drop (i + 1)).sum := by
      rw [List.drop_eq_getElem_cons h1, List.sum_cons, hgd]
    have htotal : ws.sum = r + ((ws.drop (i + 1)).sum + ((ws.take i).sum +
        (1 + (ws.getD i 0 - r - 1)))) := by omega
    rw [htotal, rrIter_add, (rrL1 ws i r hr1).2, rrIter_add]
    have hstate1 : rrIter ws ((i + 1) % ws.length, 0) ((ws.drop (i + 1)).sum) = (0, 0) := by
      by_cases hlast : i + 1 = ws.length
      · rw [hlast, Nat.mod_self]
        have : (ws.drop ws.length).sum = 0 := by rw [List.drop_length]; rfl
        rw [this]
        rfl
      · have hi1 : i + 1 < ws.length := by omega
        rw [Nat.mod_eq_of_lt hi1]
        exact (rrF ws hpos (ws.length - (i + 1)) (i + 1) hi1 rfl).1
    rw [hstate1, rrIter_add, rrG ws hpos i h1, rrIter_add]
    have hstep0 : rrIter ws (i, 0) 1 = (i, ws.getD i 0 - 1) := by
      show rrIter ws (rrStep ws (i, 0)) 0 = _
      have : rrStep ws (i, 0) = (i, ws.getD i 0 - 1) := by
        unfold rrStep
        dsimp only
        rw [if_pos rfl, if_neg (by omega)]
      rw [this]
      rfl
    rw [hstep0, (rrL1' ws i (ws.getD i 0 - r - 1) (ws.getD i 0 - 1) (by omega)).2]
    have : ws.getD i 0 - 1 - (ws.getD i 0 - r - 1) = r := by omega
    rw [this]

theorem rrSum_pos (ws : List Nat) (hpos : ∀ w ∈ ws, 1 ≤ w) (hne : ws ≠ []) :
    1 ≤ ws.sum := by
  cases ws with
  | nil => exact absurd rfl hne
  | cons w rest =>
    have := hpos w (List.mem_cons_self w rest)
    simp [List.sum_cons]
    omega

theorem rrShift (ws : List Nat) (hpos : ∀ w ∈ ws, 1 ≤ w) (hne : ws ≠ [])
    (s : Nat × Nat) (hs : rrInv ws s) (j : Nat) :
    (rrSeq ws (rrStep ws s) ws.sum).count j = (rrSeq ws s ws.sum).count j := by
  have hsum1 : 1 ≤ ws.sum := rrSum_pos ws hpos hne
  have hdecomp1 : rrSeq ws s ws.sum = s.1 :: rrSeq ws (rrStep ws s) (ws.sum - 1) := by
    have : ws.sum = (ws.sum - 1) + 1 := by omega
    rw [this]
    rfl
  have hdecomp2 : rrSeq ws (rrStep ws s) ws.sum =
      rrSeq ws (rrStep ws s) (ws.sum - 1) ++
        [(rrIter ws (rrStep ws s) (ws.sum - 1)).1] := by
    have h1 : ws.sum = (ws.sum - 1) + 1 := by omega
    rw [h1, rrSeq_add]
    rfl
  have hiter : rrIter ws (rrStep ws s) (ws.sum - 1) = rrIter ws s ws.sum := by
    conv_rhs => rw [show ws.sum = 1 + (ws.sum - 1) from by omega]
    rw [rrIter_add]
    rfl
  rw [hdecomp1, hdecomp2, hiter, rrPeriod ws hpos s hs]
  rw [List.count_cons, List.count_append]
  simp [List.count_cons]

theorem rrReachCount (ws : List Nat) (hpos : ∀ w ∈ ws, 1 ≤ w) (hne : ws ≠ [])
    (s : Nat × Nat) (hs : rrInv ws s) (n : Nat) (j : Nat) :
    (rrSeq ws (rrIter ws s n) ws.sum).count j = (rrSeq ws s ws.sum).count j := by
  induction n generalizing s with
  | zero => rfl
  | succ n ih =>
    have h1 : rrIter ws s (n + 1) = rrIter ws (rrStep ws s) n := by
      rw [show n + 1 = 1 + n from by omega, rrIter_add]
      rfl
    rw [h1, ih (rrStep ws s) (rrInv_step ws hpos s hs)]
    exact rrShift ws hpos hne s hs j

theorem rrReach (ws : List Nat) (hpos : ∀ w ∈ ws, 1 ≤ w)
    (s : Nat × Nat) (hs : rrInv ws s) : ∃ n, rrIter ws (0, 0) n = s := by
  obtain ⟨i, r⟩ := s
  obtain ⟨h1, h2⟩ := hs
  simp only at h1 h2
  have hG : rrIter ws (0, 0) ((ws.take i).sum) = (i, 0) := rrG ws hpos i h1
  by_cases hr : r = 0
  · subst hr
    exact ⟨(ws.take i).sum, hG⟩
  · refine ⟨(ws.take i).sum + (1 + (ws.getD i 0 - 1 - r)), ?_⟩
    rw [rrIter_add, hG, rrIter_add]
    have hstep0 : rrIter ws (i, 0) 1 = (i, ws.getD i 0 - 1) := by
      show rrIter ws (rrStep ws (i, 0)) 0 = _
      have : rrStep ws (i, 0) = (i, ws.getD i 0 - 1) := by
        unfold rrStep
        dsimp only
        rw [if_pos rfl, if_neg (by omega)]
      rw [this]
      rfl
    rw [hstep0, (rrL1' ws i (ws.getD i 0 - 1 - r) (ws.getD i 0 - 1) (by omega)).2]
    have : ws.getD i 0 - 1 - (ws.getD i 0 - 1 - r) = r := by omega
    rw [this]

theorem rrCount (ws : List Nat) (hpos : ∀ w ∈ ws, 1 ≤ w) (hne : ws ≠ [])
    (s : Nat × Nat) (hs : rrInv ws s) (j : Nat) (hj : j < ws.length) :
    (rrSeq ws s ws.sum).count j = ws.getD j 0 := by
  have hlen : 0 < ws.length := List.length_pos.mpr hne
  have hinv0 : rrInv ws (0, 0) := by
    refine ⟨hlen, ?_⟩
    show 0 < ws.getD 0 0
    rw [getD_eq_getElem ws 0 hlen]
    exact hpos ws[0] (List.getElem_mem hlen)
  obtain ⟨n, hn⟩ := rrReach ws hpos s hs
  have h1 := rrReachCount ws hpos hne (0, 0) hinv0 n j
  rw [hn] at h1
  rw [h1]
  have hcount0 : (rrSeq ws (0, 0) ((ws.drop 0).sum)).count j =
      if 0 ≤ j ∧ j < ws.length then ws.getD j 0 else 0 :=
    (rrF ws hpos (ws.length - 0) 0 hlen rfl).2 j
  rw [List.drop_zero] at hcount0
  rw [hcount0, if_pos ⟨Nat.zero_le j, hj⟩]

theorem steady_is_available (l : Link) (now backoff : Nat)
    (hr : l.remote.isSome = true) (hd : l.down_since = none) :
    l.is_available now backoff none = (true, l, 0) := by
  unfold Link.is_available
  have : l.remote.isNone = false := by
    cases h : l.remote with
    | none => rw [h] at hr; exact absurd hr (by simp)
    | some r => rfl
  rw [this]
  simp [hd]

theorem record_send_ok_self (l : Link) (hd : l.down_since = none) :
    l.record_send_ok = l := by
  cases l with
  | mk r w ds rx pg rt =>
    simp only [Link.record_send_ok]
    simp only at hd
    rw [hd]

theorem weightsOf_getD (m : LinkManager) (i : Nat) (l : Link)
    (hi : m.links[i]? = some l) : (weightsOf m).getD i 0 = l.weight := by
  unfold weightsOf
  simp [List.getD, List.getElem?_map, hi]

theorem send_packet_uses_mode (m : LinkManager) (sendOk : Nat → Bool)
    (p : List Nat) (now : Nat) (hbm : uses_bonding_mode p = true) :
    m.send_packet sendOk p now =
      match m.mode with
      | BondingMode.Aggregate => m.send_round_robin sendOk p now
      | BondingMode.Redundant => m.send_all sendOk p now
      | BondingMode.Failover => m.send_failover sendOk p now := by
  unfold LinkManager.send_packet
  unfold uses_bonding_mode at hbm
  dsimp only
  cases hw : wg_packet_type p with
  | none => rfl
  | some t =>
    rw [hw] at hbm
    dsimp only at hbm ⊢
    by_cases h1 : 1 ≤ t ∧ t ≤ 3
    · rw [if_pos h1] at hbm; exact absurd hbm (by simp)
    · rw [if_neg h1] at hbm ⊢
      by_cases h2 : t = 4 ∧ p.length = WG_KEEPALIVE_LEN
      · rw [if_pos h2] at hbm; exact absurd hbm (by simp)
      · rw [if_neg h2]

theorem sim_step (m : LinkManager) (sendOk : Nat → Bool) (packet : List Nat)
    (now : Nat) (hst : steady m sendOk)
    (hinv : rrInv (weightsOf m) (m.next_index, m.remaining_weight))
    (hbm : uses_bonding_mode packet = true) :
    m.send_packet sendOk packet now =
      ({ m with
          next_index := (rrStep (weightsOf m) (m.next_index, m.remaining_weight)).1,
          remaining_weight := (rrStep (weightsOf m) (m.next_index, m.remaining_weight)).2 },
        [(m.next_index, packet)], 0) := by
  obtain ⟨hmode, htmo, hne, hlinks, hsend⟩ := hst
  obtain ⟨hinv1, hinv2⟩ := hinv
  have hwlen : (weightsOf m).length = m.links.length := by
    unfold weightsOf; exact List.length_map _ _
  simp only at hinv1 hinv2
  have hlen : m.next_index < m.links.length := by omega
  have hlenpos : 0 < m.links.length := by omega
  obtain ⟨l, hl⟩ : ∃ l, m.links[m.next_index]? = some l := by
    rw [List.getElem?_eq_getElem hlen]
    exact ⟨_, rfl⟩
  have hlmem : l ∈ m.links := List.getElem?_mem hl
  obtain ⟨hlr, hld, hlw⟩ := hlinks l hlmem
  have hwgetD : (weightsOf m).getD m.next_index 0 = l.weight :=
    weightsOf_getD m m.next_index l hl
  have hmod : m.next_index % m.links.length = m.next_index := Nat.mod_eq_of_lt hlen
  have hsetself : m.links.set m.next_index l = m.links := set_getElem?_self _ _ _ hl
  -- the single nwi_go iteration
  have hav : l.is_available now m.error_backoff m.health_timeout = (true, l, 0) := by
    rw [htmo]
    exact steady_is_available l now m.error_backoff hlr hld
  have hrw : (if m.remaining_weight = 0 then l.weight else m.remaining_weight) > 0 := by
    split_ifs <;> omega
  have hnwi : ∀ fuel, m.nwi_go now (fuel + 1) =
      (some m.next_index,
       { m with
          next_index := (rrStep (weightsOf m) (m.next_index, m.remaining_weight)).1,
          remaining_weight := (rrStep (weightsOf m) (m.next_index, m.remaining_weight)).2 },
       0) := by
    intro fuel
    show LinkManager.nwi_go now (fuel + 1) m = _
    unfold LinkManager.nwi_go
    dsimp only
    rw [hmod, hl]
    dsimp only
    rw [hav]
    dsimp only
    have hnskip : ¬(l.weight = 0 ∨ (true : Bool) = false) := by
      simp; omega
    rw [if_neg hnskip, if_pos hrw]
    unfold rrStep
    dsimp only
    rw [hwgetD, hwlen]
    by_cases hz : (if m.remaining_weight = 0 then l.weight else m.remaining_weight) - 1 = 0
    · rw [if_pos hz, if_pos hz]
      unfold LinkManager.advance_cursor
      rw [hsetself]
    · rw [if_neg hz, if_neg hz]
      rw [hsetself]
  have hfuel : ∃ k, m.links.length = k + 1 := ⟨m.links.length - 1, by omega⟩
  obtain ⟨k, hk⟩ := hfuel
  set mStep : LinkManager :=
    { m with
       next_index := (rrStep (weightsOf m) (m.next_index, m.remaining_weight)).1,
       remaining_weight := (rrStep (weightsOf m) (m.next_index, m.remaining_weight)).2 }
    with hmStep
  have hnwi2 : m.next_weighted_index now = (some m.next_index, mStep, 0) := by
    unfold LinkManager.next_weighted_index
    have hemp : m.links.isEmpty = false := by
      cases hls : m.links with
      | nil => exact absurd hls hne
      | cons a b => rfl
    rw [hemp]
    rw [if_neg Bool.false_ne_true]
    rw [hk]
    exact hnwi k
  have hstl : mStep.send_to_link sendOk m.next_index packet now =
      (true, mStep, [(m.next_index, packet)], 0) := by
    unfold LinkManager.send_to_link
    have hml : mStep.links = m.links := rfl
    rw [hml, hl]
    dsimp only
    obtain ⟨r, hr⟩ := Option.isSome_iff_exists.mp hlr
    rw [hr]
    dsimp only
    rw [if_pos (hsend m.next_index)]
    rw [record_send_ok_self l hld, hsetself]
  have hsrr : LinkManager.srr_go sendOk packet now (k + 1) m =
      (true, mStep, [(m.next_index, packet)], 0) := by
    unfold LinkManager.srr_go
    rw [hnwi2]
    dsimp only
    rw [hstl]
    dsimp only
    rw [if_pos rfl]
  have hrr : m.send_round_robin sendOk packet now =
      (mStep, [(m.next_index, packet)], 0) := by
    unfold LinkManager.send_round_robin
    dsimp only
    rw [if_neg (by omega : ¬(m.links.length = 0))]
    rw [hk, hsrr]
    dsimp only
    rw [if_pos rfl]
  rw [send_packet_uses_mode m sendOk packet now hbm, hmode]
  exact hrr

theorem steady_weights_pos (m : LinkManager) (sendOk : Nat → Bool)
    (hst : steady m sendOk) : ∀ w ∈ weightsOf m, 1 ≤ w := by
  intro w hw
  unfold weightsOf at hw
  obtain ⟨l, hlm, hlw⟩ := List.mem_map.mp hw
  rw [← hlw]
  exact (hst.2.2.2.1 l hlm).2.2

theorem steady_weights_ne (m : LinkManager) (sendOk : Nat → Bool)
    (hst : steady m sendOk) : weightsOf m ≠ [] := by
  unfold weightsOf
  intro hc
  exact hst.2.2.1 (List.map_eq_nil_iff.mp hc)

theorem sendN_steady (sendOk : Nat → Bool) (packet : List Nat) (now : Nat)
    (n : Nat) (m : LinkManager) (hst : steady m sendOk)
    (hinv : rrInv (weightsOf m) (m.next_index, m.remaining_weight))
    (hbm : uses_bonding_mode packet = true) :
    (sendN sendOk packet now n m).2.map Prod.fst =
      rrSeq (weightsOf m) (m.next_index, m.remaining_weight) n ∧
    (sendN sendOk packet now n m).1 =
      { m with
         next_index := (rrIter (weightsOf m) (m.next_index, m.remaining_weight) n).1,
         remaining_weight := (rrIter (weightsOf m) (m.next_index, m.remaining_weight) n).2 } := by
  induction n generalizing m with
  | zero => exact ⟨rfl, rfl⟩
  | succ n ih =>
    have hsp := sim_step m sendOk packet now hst hinv hbm
    have hmStepSteady : steady ({ m with
        next_index := (rrStep (weightsOf m) (m.next_index, m.remaining_weight)).1,
        remaining_weight := (rrStep (weightsOf m) (m.next_index, m.remaining_weight)).2 })
        sendOk := by
      obtain ⟨hmode, htmo, hne, hlinks, hsend⟩ := hst
      exact ⟨hmode, htmo, hne, hlinks, hsend⟩
    have hmStepInv : rrInv (weightsOf m)
        ((rrStep (weightsOf m) (m.next_index, m.remaining_weight)).1,
         (rrStep (weightsOf m) (m.next_index, m.remaining_weight)).2) := by
      have := rrInv_step (weightsOf m) (steady_weights_pos m sendOk hst)
        (m.next_index, m.remaining_weight) hinv
      exact this
    obtain ⟨ihmap, ihmgr⟩ := ih _ hmStepSteady hmStepInv
    constructor
    · show ((sendN sendOk packet now (n + 1) m).2.map Prod.fst) = _
      unfold sendN
      rw [hsp]
      dsimp only
      cases hrec : sendN sendOk packet now n ({ m with
          next_index := (rrStep (weightsOf m) (m.next_index, m.remaining_weight)).1,
          remaining_weight := (rrStep (weightsOf m) (m.next_index, m.remaining_weight)).2 }) with
      | mk mfin txs =>
        dsimp only
        rw [hrec] at ihmap
        dsimp only at ihmap
        rw [List.map_append, ihmap]
        rfl
    · unfold sendN
      rw [hsp]
      dsimp only
      cases hrec : sendN sendOk packet now n ({ m with
          next_index := (rrStep (weightsOf m) (m.next_index, m.remaining_weight)).1,
          remaining_weight := (rrStep (weightsOf m) (m.next_index, m.remaining_weight)).2 }) with
      | mk mfin txs =>
        dsimp only
        rw [hrec] at ihmgr
        dsimp only at ihmgr
        rw [ihmgr]
        rfl

/-- C3: in Aggregate mode, from any scheduler state satisfying the cursor
invariant (which holds initially and is preserved by every send), a window of
`sum every weight` consecutive data sends with all links available, positive
weights and no send failure transmits exactly `weight i` datagrams on link `i`,
and returns the scheduler to its starting state — so with weights {3, 1, 2}
six sends distribute (3, 1, 2) and the seventh send repeats the first. -/
theorem c3_weighted_round_robin (m : LinkManager) (sendOk : Nat → Bool)
    (packet : List Nat) (now : Nat) (hst : steady m sendOk)
    (hinv : rrInv (weightsOf m) (m.next_index, m.remaining_weight))
    (hbm : uses_bonding_mode packet = true) :
    (∀ j, j < m.links.length →
      ((sendN sendOk packet now (weightsOf m).sum m).2.map Prod.fst).count j =
        (weightsOf m).getD j 0) ∧
    (sendN sendOk packet now (weightsOf m).sum m).1 = m := by
  have hpos := steady_weights_pos m sendOk hst
  have hne := steady_weights_ne m sendOk hst
  have hwlen : (weightsOf m).length = m.links.length := by
    unfold weightsOf; exact List.length_map _ _
  obtain ⟨hmap, hmgr⟩ := sendN_steady sendOk packet now (weightsOf m).sum m hst hinv hbm
  constructor
  · intro j hj
    rw [hmap]
    exact rrCount (weightsOf m) hpos hne (m.next_index, m.remaining_weight) hinv j
      (by omega)
  · rw [hmgr, rrPeriod (weightsOf m) hpos (m.next_index, m.remaining_weight) hinv]

theorem stl_all_none (m : LinkManager) (sendOk : Nat → Bool) (j : Nat)
    (p : List Nat) (now : Nat) (hall : ∀ l ∈ m.links, l.remote = none) :
    m.send_to_link sendOk j p now = (false, m, [], 0) := by
  unfold LinkManager.send_to_link
  cases hj : m.links[j]? with
  | none => rfl
  | some l =>
    dsimp only
    rw [hall l (List.getElem?_mem hj)]

theorem sall_go_all_none (sendOk : Nat → Bool) (p : List Nat) (now : Nat)
    (idxs : List Nat) (m : LinkManager)
    (hall : ∀ l ∈ m.links, l.remote = none) :
    LinkManager.send_all_go sendOk p now idxs m = (0, m, [], 0) := by
  induction idxs with
  | nil => rfl
  | cons j rest ih =>
    unfold LinkManager.send_all_go
    rw [stl_all_none m sendOk j p now hall]
    dsimp only
    rw [ih]
    rfl

theorem sany_go_all_none (sendOk : Nat → Bool) (p : List Nat) (now : Nat)
    (idxs : List Nat) (m : LinkManager)
    (hall : ∀ l ∈ m.links, l.remote = none) :
    LinkManager.send_any_go sendOk p now idxs m = (false, m, [], 0) := by
  induction idxs with
  | nil => rfl
  | cons j rest ih =>
    unfold LinkManager.send_any_go
    rw [stl_all_none m sendOk j p now hall]
    dsimp only
    rw [if_neg Bool.false_ne_true, ih]
    rfl

theorem is_available_all_none (l : Link) (now backoff : Nat) (tmo : Option Nat)
    (h : l.remote = none) : l.is_available now backoff tmo = (false, l, 0) := by
  unfold Link.is_available
  rw [h]
  rfl

theorem nwi_go_all_none (now : Nat) (fuel : Nat) (m : LinkManager)
    (hall : ∀ l ∈ m.links, l.remote = none) :
    ∃ ni rw2, LinkManager.nwi_go now fuel m =
      (none, { m with next_index := ni, remaining_weight := rw2 }, 0) := by
  induction fuel generalizing m with
  | zero => exact ⟨m.next_index, m.remaining_weight, rfl⟩
  | succ fuel ih =>
    unfold LinkManager.nwi_go
    dsimp only
    cases hj : m.links[m.next_index % m.links.length]? with
    | none => exact ⟨m.next_index, m.remaining_weight, rfl⟩
    | some l =>
      dsimp only
      rw [is_available_all_none l now m.error_backoff m.health_timeout
        (hall l (List.getElem?_mem hj))]
      dsimp only
      rw [if_pos (Or.inr rfl)]
      have hsetself : m.links.set (m.next_index % m.links.length) l = m.links :=
        set_getElem?_self _ _ _ hj
      obtain ⟨ni, rw2, hrec⟩ := ih ({ m with links := m.links.set (m.next_index % m.links.length) l }.advance_cursor m.links.length) (by
        unfold LinkManager.advance_cursor
        dsimp only
        rw [hsetself]
        exact hall)
      rw [hrec]
      unfold LinkManager.advance_cursor at hrec ⊢
      dsimp only at hrec ⊢
      rw [hsetself] at hrec ⊢
      exact ⟨ni, rw2, rfl⟩

theorem send_all_all_none (m : LinkManager) (sendOk : Nat → Bool)
    (p : List Nat) (now : Nat) (hall : ∀ l ∈ m.links, l.remote = none) :
    m.send_all sendOk p now = (m, [], 1) := by
  unfold LinkManager.send_all
  rw [sall_go_all_none sendOk p now (List.range m.links.length) m hall]
  rfl

theorem send_round_robin_all_none (m : LinkManager) (sendOk : Nat → Bool)
    (p : List Nat) (now : Nat) (hne : m.links ≠ [])
    (hall : ∀ l ∈ m.links, l.remote = none) :
    ∃ m', m.send_round_robin sendOk p now = (m', [], 1) ∧ m'.links = m.links := by
  unfold LinkManager.send_round_robin
  dsimp only
  have hlen : m.links.length ≠ 0 := by
    cases hls : m.links with
    | nil => exact absurd hls hne
    | cons a b => simp [hls]
  rw [if_neg hlen]
  obtain ⟨k, hk⟩ : ∃ k, m.links.length = k + 1 := ⟨m.links.length - 1, by omega⟩
  obtain ⟨ni, rw2, hnwi⟩ := nwi_go_all_none now m.links.length m hall
  have hnwi2 : m.next_weighted_index now =
      (none, { m with next_index := ni, remaining_weight := rw2 }, 0) := by
    unfold LinkManager.next_weighted_index
    have hemp : m.links.isEmpty = false := by
      cases hls : m.links with
      | nil => exact absurd hls hne
      | cons a b => rfl
    rw [hemp]
    rw [if_neg Bool.false_ne_true]
    exact hnwi
  have hsrr : LinkManager.srr_go sendOk p now (k + 1) m =
      (false, { m with next_index := ni, remaining_weight := rw2 }, [], 0) := by
    unfold LinkManager.srr_go
    rw [hnwi2]
  rw [hk, hsrr]
  dsimp only
  rw [if_neg Bool.false_ne_true]
  have hany : ({ m with next_index := ni, remaining_weight := rw2 } : LinkManager).send_any sendOk p now =
      (false, { m with next_index := ni, remaining_weight := rw2 }, [], 0) := by
    unfold LinkManager.send_any
    exact sany_go_all_none sendOk p now _ _ hall
  rw [hany]
  dsimp only
  rw [if_neg Bool.false_ne_true]
  exact ⟨_, rfl, rfl⟩

theorem bfi_go_all_none (now : Nat) (idxs : List Nat)
    (best : Option (Nat × Nat)) (m : LinkManager)
    (hall : ∀ l ∈ m.links, l.remote = none) :
    LinkManager.bfi_go now idxs best m = (best, m, 0) := by
  induction idxs generalizing best with
  | nil => rfl
  | cons j rest ih =>
    unfold LinkManager.bfi_go
    cases hj : m.links[j]? with
    | none => exact ih best
    | some l =>
      dsimp only
      rw [is_available_all_none l now m.error_backoff m.health_timeout
        (hall l (List.getElem?_mem hj))]
      dsimp only
      rw [if_pos rfl]
      rw [set_getElem?_self _ _ _ hj]
      have : ({ m with links := m.links } : LinkManager) = m := rfl
      rw [this, ih best]
      rfl

theorem send_failover_all_none (m : LinkManager) (sendOk : Nat → Bool)
    (p : List Nat) (now : Nat) (hall : ∀ l ∈ m.links, l.remote = none) :
    m.send_failover sendOk p now = (m, [], 1) := by
  unfold LinkManager.send_failover
  have hbfi : m.best_failover_index now = (none, m, 0) := by
    unfold LinkManager.best_failover_index
    rw [bfi_go_all_none now (List.range m.links.length) none m hall]
    rfl
  rw [hbfi]
  dsimp only
  have hany : m.send_any sendOk p now = (false, m, [], 0) := by
    unfold LinkManager.send_any
    exact sany_go_all_none sendOk p now _ _ hall
  rw [hany]
  dsimp only
  rw [if_neg Bool.false_ne_true]
  rfl

/-- C1 (amended): when no configured link has a remote endpoint (and at least
one link exists), `send_packet` transmits on no link and logs exactly one
warning, in every bonding mode; the last-resort fallback `send_any` sends
only on links whose remote is set, not only on available ones. -/
theorem c1_all_links_down (m : LinkManager) (sendOk : Nat → Bool)
    (packet : List Nat) (now : Nat) (hne : m.links ≠ [])
    (hall : ∀ l ∈ m.links, l.remote = none) :
    (m.send_packet sendOk packet now).2.1 = [] ∧
    (m.send_packet sendOk packet now).2.2 = 1 ∧
    (∀ (m2 : LinkManager) (sendOk2 : Nat → Bool) (p2 : List Nat) (now2 : Nat),
      ∀ ab ∈ (m2.send_any sendOk2 p2 now2).2.2.1, remoteSomeAt m2 ab.1 = true) := by
  have hthird : ∀ (m2 : LinkManager) (sendOk2 : Nat → Bool) (p2 : List Nat) (now2 : Nat),
      ∀ ab ∈ (m2.send_any sendOk2 p2 now2).2.2.1, remoteSomeAt m2 ab.1 = true := by
    intro m2 sendOk2 p2 now2 ab hab
    exact ((sany_go_spec sendOk2 p2 now2 (List.range m2.links.length) m2).2 ab hab).2.2
  have hsa := send_all_all_none m sendOk packet now hall
  obtain ⟨mrr, hrr, hrrl⟩ := send_round_robin_all_none m sendOk packet now hne hall
  have hfo := send_failover_all_none m sendOk packet now hall
  have hmain : (m.send_packet sendOk packet now).2.1 = [] ∧
      (m.send_packet sendOk packet now).2.2 = 1 := by
    unfold LinkManager.send_packet
    dsimp only
    have hbymode : (match m.mode with
        | BondingMode.Aggregate => m.send_round_robin sendOk packet now
        | BondingMode.Redundant => m.send_all sendOk packet now
        | BondingMode.Failover => m.send_failover sendOk packet now).2.1 = [] ∧
        (match m.mode with
        | BondingMode.Aggregate => m.send_round_robin sendOk packet now
        | BondingMode.Redundant => m.send_all sendOk packet now
        | BondingMode.Failover => m.send_failover sendOk packet now).2.2 = 1 := by
      cases m.mode with
      | Aggregate => rw [hrr]; exact ⟨rfl, rfl⟩
      | Redundant => rw [hsa]; exact ⟨rfl, rfl⟩
      | Failover => rw [hfo]; exact ⟨rfl, rfl⟩
    cases hw : wg_packet_type packet with
    | none => exact hbymode
    | some t =>
      dsimp only
      split_ifs with h1 h2
      · rw [hsa]; exact ⟨rfl, rfl⟩
      · rw [hsa]; exact ⟨rfl, rfl⟩
      · exact hbymode
  exact ⟨hmain.1, hmain.2, hthird⟩

theorem stl_none_at (m : LinkManager) (sendOk : Nat → Bool) (j : Nat)
    (p : List Nat) (now : Nat) (hr : remoteSomeAt m j = false) :
    m.send_to_link sendOk j p now = (false, m, [], 0) := by
  unfold remoteSomeAt at hr
  unfold LinkManager.send_to_link
  cases hj : m.links[j]? with
  | none => rfl
  | some l =>
    rw [hj] at hr
    dsimp only at hr
    dsimp only
    cases hrem : l.remote with
    | none => rfl
    | some r => rw [hrem] at hr; exact absurd hr (by simp)

theorem stl_first (m : LinkManager) (sendOk : Nat → Bool) (j : Nat)
    (p : List Nat) (now : Nat) (hr : remoteSomeAt m j = true) :
    (m.send_to_link sendOk j p now).1 = sendOk j := by
  unfold remoteSomeAt at hr
  unfold LinkManager.send_to_link
  cases hj : m.links[j]? with
  | none => rw [hj] at hr; exact absurd hr (by simp)
  | some l =>
    rw [hj] at hr
    dsimp only at hr
    dsimp only
    cases hrem : l.remote with
    | none => rw [hrem] at hr; exact absurd hr (by simp)
    | some r =>
      dsimp only
      by_cases hok : sendOk j = true
      · rw [if_pos hok, hok]
      · rw [if_neg hok]
        have : sendOk j = false := by
          cases hv : sendOk j with
          | true => exact absurd hv hok
          | false => rfl
        rw [this]

theorem stl_warn0 (m : LinkManager) (sendOk : Nat → Bool) (j : Nat)
    (p : List Nat) (now : Nat) (hok : sendOk j = true) :
    (m.send_to_link sendOk j p now).2.2.2 = 0 := by
  unfold LinkManager.send_to_link
  cases hj : m.links[j]? with
  | none => rfl
  | some l =>
    dsimp only
    cases hrem : l.remote with
    | none => rfl
    | some r =>
      dsimp only
      rw [if_pos hok]

theorem sall_go_chr (sendOk : Nat → Bool) (p : List Nat) (now : Nat)
    (idxs : List Nat) (m : LinkManager) :
    (LinkManager.send_all_go sendOk p now idxs m).2.2.1 =
      (idxs.filter (fun i => remoteSomeAt m i)).map (fun i => (i, p)) ∧
    (LinkManager.send_all_go sendOk p now idxs m).1 =
      (idxs.filter (fun i => remoteSomeAt m i && sendOk i)).length ∧
    ((∀ i, sendOk i = true) →
      (LinkManager.send_all_go sendOk p now idxs m).2.2.2 = 0) := by
  induction idxs generalizing m with
  | nil => exact ⟨rfl, rfl, fun _ => rfl⟩
  | cons j rest ih =>
    unfold LinkManager.send_all_go
    cases hstl : m.send_to_link sendOk j p now with
    | mk ok rest' =>
      obtain ⟨m', tx, w⟩ := rest'
      dsimp only
      have hrsa : ∀ i, remoteSomeAt m' i = remoteSomeAt m i := by
        intro i
        have hx := stl_rsa m sendOk j p now i
        rw [hstl] at hx; exact hx
      have hfilter1 : rest.filter (fun i => remoteSomeAt m' i) =
          rest.filter (fun i => remoteSomeAt m i) :=
        List.filter_congr (fun x _ => hrsa x)
      have hfilter2 : rest.filter (fun i => remoteSomeAt m' i && sendOk i) =
          rest.filter (fun i => remoteSomeAt m i && sendOk i) :=
        List.filter_congr (fun x _ => by rw [hrsa x])
      obtain ⟨ih1, ih2, ih3⟩ := ih m'
      by_cases hr : remoteSomeAt m j = true
      · have htx : tx = [(j, p)] := by
          have hx := stl_attempt m sendOk j p now hr
          rw [hstl] at hx; exact hx
        have hok : ok = sendOk j := by
          have hx := stl_first m sendOk j p now hr
          rw [hstl] at hx; exact hx
        refine ⟨?_, ?_, ?_⟩
        · rw [htx, ih1, hfilter1]
          rw [List.filter_cons_of_pos hr]
          rfl
        · rw [ih2, hfilter2, hok]
          rw [List.filter_cons]
          by_cases hsj : sendOk j = true
          · rw [hsj]
            have : (remoteSomeAt m j && true) = true := by rw [hr]; rfl
            rw [this]
            simp
            omega
          · have hsjf : sendOk j = false := by
              cases hv : sendOk j with
              | true => exact absurd hv hsj
              | false => rfl
            rw [hsjf]
            have : (remoteSomeAt m j && false) = false := by simp
            rw [this]
            simp
        · intro hall
          have hw0 : w = 0 := by
            have hx := stl_warn0 m sendOk j p now (hall j)
            rw [hstl] at hx; exact hx
          rw [hw0, ih3 hall]
      · have hrf : remoteSomeAt m j = false := by
          cases hv : remoteSomeAt m j with
          | true => exact absurd hv hr
          | false => rfl
        have hx := stl_none_at m sendOk j p now hrf
        rw [hstl] at hx
        have hxo : ok = false := congrArg Prod.fst hx
        have hxm : m' = m := congrArg (fun z => z.2.1) hx
        have hxt : tx = [] := congrArg (fun z => z.2.2.1) hx
        have hxw : w = 0 := congrArg (fun z => z.2.2.2) hx
        subst hxm
        refine ⟨?_, ?_, ?_⟩
        · rw [hxt, ih1, List.filter_cons_of_neg (by simp [hrf])]
          rfl
        · rw [ih2, hxo]
          rw [List.filter_cons_of_neg (by simp [hrf])]
          simp
        · intro hall
          rw [hxw, ih3 hall]

theorem links_all_none_iff (m : LinkManager) :
    (m.links.all (fun l => l.remote.isNone) = true) ↔
      (List.range m.links.length).filter (fun i => remoteSomeAt m i) = [] := by
  rw [List.all_eq_true, List.filter_eq_nil_iff]
  constructor
  · intro h i hi
    rw [List.mem_range] at hi
    simp only [Bool.not_eq_true]
    unfold remoteSomeAt
    cases hj : m.links[i]? with
    | none => rfl
    | some l =>
      have := h l (List.getElem?_mem hj)
      dsimp only
      cases hrem : l.remote with
      | none => rfl
      | some r => rw [hrem] at this; exact absurd this (by simp)
  · intro h l hl
    obtain ⟨i, hi⟩ := List.getElem_of_mem hl
    obtain ⟨hilen, hgl⟩ := hi
    have := h i (List.mem_range.mpr hilen)
    simp only [Bool.not_eq_true] at this
    unfold remoteSomeAt at this
    rw [List.getElem?_eq_getElem hilen, hgl] at this
    dsimp only at this
    cases hrem : l.remote with
    | none => simp
    | some r => rw [hrem] at this; exact absurd this (by simp)

/-- C2 (amended): in Redundant mode a data datagram is attempted once on every
link whose remote endpoint is set — available or not — and on no link without
a remote; when all attempted sends succeed, the drop warning is logged exactly
when no link has a remote. With two remoted links, one data packet yields
exactly one transmission on each of the two sockets. -/
theorem c2_redundant_broadcast (m : LinkManager) (sendOk : Nat → Bool)
    (packet : List Nat) (now : Nat)
    (hmode : m.mode = BondingMode.Redundant)
    (hbm : uses_bonding_mode packet = true) :
    (m.send_packet sendOk packet now).2.1 =
      ((List.range m.links.length).filter (fun i => remoteSomeAt m i)).map
        (fun i => (i, packet)) ∧
    ((∀ i, sendOk i = true) →
      (m.send_packet sendOk packet now).2.2 =
        if m.links.all (fun l => l.remote.isNone) then 1 else 0) := by
  rw [send_packet_uses_mode m sendOk packet now hbm, hmode]
  obtain ⟨hchr1, hchr2, hchr3⟩ :=
    sall_go_chr sendOk packet now (List.range m.links.length) m
  unfold LinkManager.send_all
  cases hgo : LinkManager.send_all_go sendOk packet now (List.range m.links.length) m with
  | mk sent rest' =>
    obtain ⟨m', txs, w⟩ := rest'
    rw [hgo] at hchr1 hchr2 hchr3
    dsimp only at hchr1 hchr2 hchr3 ⊢
    constructor
    · split_ifs <;> exact hchr1
    · intro hall
      have hw0 : w = 0 := hchr3 hall
      have hfeq : (List.range m.links.length).filter
            (fun i => remoteSomeAt m i && sendOk i) =
          (List.range m.links.length).filter (fun i => remoteSomeAt m i) :=
        List.filter_congr (fun x _ => by rw [hall x, Bool.and_true])
      rw [hfeq] at hchr2
      by_cases hz : m.links.all (fun l => l.remote.isNone) = true
      · rw [if_pos hz]
        have : sent = 0 := by
          rw [hchr2, (links_all_none_iff m).mp hz]
          rfl
        rw [if_pos this, hw0]
      · rw [if_neg hz]
        have hne : (List.range m.links.length).filter (fun i => remoteSomeAt m i) ≠ [] := by
          intro hc
          exact hz ((links_all_none_iff m).mpr hc)
        have : sent ≠ 0 := by
          rw [hchr2]
          intro hc
          exact hne (List.length_eq_zero.mp hc)
        rw [if_neg this, hw0]

/-- C9: `parse_control_packet` inverts `build_control_packet` for every type
byte and 64-bit token, and returns `None` on every byte string whose length is
not 13 or whose first four bytes are not the magic. -/
theorem c9_control_codec (t n : Nat) (b : List Nat) :
    (t < 256 → n < 2 ^ 64 →
      parse_control_packet (build_control_packet t n) = some (t, n)) ∧
    (b.length ≠ 13 → parse_control_packet b = none) ∧
    (b.length = 13 → b.take 4 ≠ BOND_MAGIC → parse_control_packet b = none) := by
  refine ⟨fun ht hn => ?_, fun hl => ?_, fun hl hm => ?_⟩
  · simp only [parse_control_packet, build_control_packet, BOND_MAGIC,
      BOND_PACKET_LEN, u64_to_be_bytes, u64_from_be_bytes, List.foldl,
      List.append_assoc, List.cons_append, List.nil_append]
    norm_num [List.take, List.getD, List.drop]
    omega
  · simp [parse_control_packet, BOND_PACKET_LEN, hl]
  · simp [parse_control_packet, BOND_PACKET_LEN, hl, hm]

theorem c9_control_codec_witness :
    parse_control_packet (build_control_packet 1 42) = some (1, 42) ∧
    parse_control_packet [9] = none ∧
    parse_control_packet (87 :: List.replicate 12 0) = none :=
  ⟨(c9_control_codec 1 42 [9]).1 (by decide) (by decide),
   (c9_control_codec 1 42 [9]).2.1 (by decide),
   (c9_control_codec 1 42 (87 :: List.replicate 12 0)).2.2 (by decide) (by decide)⟩

/-- C1 counterexample: a manager whose only link has a remote but is in
down/backoff state has zero available links, yet `send_packet` transmits the
packet on that link and logs no warning — in Redundant mode (via `send_all`)
and in Aggregate mode, where the weighted scheduler finds no available link
and the last-resort `send_any` fallback still sends on the unavailable link.
This refutes both that the packet is dropped with one warning whenever zero
links are available and that the fallback sends only on an available link. -/
theorem c1_counterexample :
    (availableCount exMgrRedDown 101 = 0 ∧
      (exMgrRedDown.send_packet (fun _ => true) exDataPkt 101).2.1 = [(0, exDataPkt)] ∧
      (exMgrRedDown.send_packet (fun _ => true) exDataPkt 101).2.2 = 0) ∧
    (availableCount exMgrAggDown 101 = 0 ∧
      (exMgrAggDown.send_packet (fun _ => true) exDataPkt 101).2.1 = [(0, exDataPkt)] ∧
      (exMgrAggDown.send_packet (fun _ => true) exDataPkt 101).2.2 = 0) := by
  decide

/-- C2 counterexample: in Redundant mode with link 0 available and link 1
unavailable (down, in backoff) but remoted, one data send transmits on both
links — refuting the claim that no unavailable link is transmitted on. -/
theorem c2_counterexample :
    availableAt exMgrRedMixed 101 1 = false ∧
    (exMgrRedMixed.send_packet (fun _ => true) exDataPkt 101).2.1 =
      [(0, exDataPkt), (1, exDataPkt)] := by
  decide

theorem c1_all_links_down_witness :
    (exMgrNone.send_packet (fun _ => true) exDataPkt 0).2.1 = [] ∧
    (exMgrNone.send_packet (fun _ => true) exDataPkt 0).2.2 = 1 ∧
    (∀ (m2 : LinkManager) (sendOk2 : Nat → Bool) (p2 : List Nat) (now2 : Nat),
      ∀ ab ∈ (m2.send_any sendOk2 p2 now2).2.2.1, remoteSomeAt m2 ab.1 = true) :=
  c1_all_links_down exMgrNone (fun _ => true) exDataPkt 0 (by decide) (by decide)

theorem c2_redundant_broadcast_witness :
    (exMgrRedMixed.send_packet (fun _ => true) exDataPkt 101).2.1 =
      ((List.range exMgrRedMixed.links.length).filter
        (fun i => remoteSomeAt exMgrRedMixed i)).map (fun i => (i, exDataPkt)) ∧
    ((∀ i, (fun _ : Nat => true) i = true) →
      (exMgrRedMixed.send_packet (fun _ => true) exDataPkt 101).2.2 =
        if exMgrRedMixed.links.all (fun l => l.remote.isNone) then 1 else 0) :=
  c2_redundant_broadcast exMgrRedMixed (fun _ => true) exDataPkt 101 rfl (by decide)

theorem c3_weighted_round_robin_witness :
    (∀ j, j < exMgr312.links.length →
      ((sendN (fun _ => true) exDataPkt 0 (weightsOf exMgr312).sum exMgr312).2.map
        Prod.fst).count j = (weightsOf exMgr312).getD j 0) ∧
    (sendN (fun _ => true) exDataPkt 0 (weightsOf exMgr312).sum exMgr312).1 = exMgr312 :=
  c3_weighted_round_robin exMgr312 (fun _ => true) exDataPkt 0
    ⟨rfl, rfl, by decide, by decide, fun _ => rfl⟩ ⟨by decide, by decide⟩ (by decide)

theorem c4_handshake_broadcast_witness :
    (1, exHsPkt) ∈ (exMgr312.send_packet (fun _ => true) exHsPkt 0).2.1 :=
  c4_handshake_broadcast exMgr312 (fun _ => true) exHsPkt 0 1 1 (by decide)
    (Or.inl (by decide)) (by decide)

theorem c5_is_available_witness :
    ((Link.is_available exNoneLink 5 3 none).1 = false) ∧
    ((Link.is_available exStale 100 5 (some 10)).1 = false ∧
      (Link.is_available exStale 100 5 (some 10)).2.1.down_since = some 100) ∧
    ((Link.is_available exDownLink 101 5000 none).1 = false) ∧
    ((Link.is_available (mkLink 1) 100 5 (some 10)).1 = true) :=
  ⟨(c5_is_available exNoneLink 5 3 none).1 rfl,
   (c5_is_available exStale 100 5 (some 10)).2.1 (by decide) (by decide),
   (c5_is_available exDownLink 101 5000 none).2.2.2.1 (by decide) (by decide) 100
     rfl (by decide),
   (c5_is_available (mkLink 1) 100 5 (some 10)).2.2.2.2 (by decide) (by decide)
     (fun d hd => Option.noConfusion hd)⟩

theorem c6_control_gate_witness :
    ((exMgrOne.handle_control_packet (fun _ => true) 0 (build_control_packet 1 5) 0 0).1 = true ∧
      noise_input exMgrOne (fun _ => true) 0 (build_control_packet 1 5) 0 0 = none) ∧
    ((exMgrOne.handle_control_packet (fun _ => true) 0 [9, 9] 0 0).1 = false ∧
      noise_input exMgrOne (fun _ => true) 0 [9, 9] 0 0 = some [9, 9]) :=
  ⟨(c6_control_gate exMgrOne (fun _ => true) 0 (build_control_packet 1 5) 0 0).1
      (by decide) (by decide),
   (c6_control_gate exMgrOne (fun _ => true) 0 [9, 9] 0 0).2 (by decide)⟩

theorem c7_no_remote_never_sent_witness :
    (∀ ab ∈ (exMgrMix.send_packet (fun _ => true) exDataPkt 0).2.1, ab.1 ≠ 1) ∧
    (∀ ab ∈ (exMgrMix.send_health_pings (fun _ => true) 500 0).2.1, ab.1 ≠ 1) ∧
    (∀ ab ∈ (exMgrMix.handle_control_packet (fun _ => true) 0
      (build_control_packet 1 5) 500 0).2.2.1, ab.1 ≠ 1) :=
  c7_no_remote_never_sent exMgrMix (fun _ => true) exDataPkt
    (build_control_packet 1 5) 0 500 0 1 (by decide)

theorem c8_pong_rtt_witness :
    (exMgrOne.handle_control_packet (fun _ => true) 0 (build_control_packet 2 500)
        520 0).2.1.links[0]? = some ((mkLink 1).record_rtt (520 - 500)) ∧
    ((mkLink 1).record_rtt (520 - 500)).last_rtt_ms = some 20 :=
  ⟨(c8_pong_rtt exMgrOne (fun _ => true) 0 (mkLink 1) (build_control_packet 2 500)
      500 520 0 (by decide) (by decide)).1 (by decide),
   rfl⟩

theorem c10_ping_recovery_witness :
    (exMgrRedDown.send_health_pings (fun _ => true) 500 101).1.links[0]? =
      some ((exDownLink.record_send_ok).record_ping 101) ∧
    ((exDownLink.record_send_ok).record_ping 101).down_since = none :=
  c10_ping_recovery exMgrRedDown (fun _ => true) 0 exDownLink 100 500 101
    (by decide) (by decide) (by decide) rfl
